import Mathlib

/-!
Verification development for the bill-tracking application (`app.py`).

The definitions below are a shallow embedding of the money/date helpers, the
`Conta` record, and `DataManager.ensure_recurring_for_month` together with the
recurring branches of the `/cadastrar` route.  Python `Decimal` values are
modelled as `Rat` (with explicit half-up / banker's quantization to two
decimals), `datetime.date` as a record of integers, and `str` as `String`
(string algorithms are carried out on `List Char`, which is the underlying
data of `String`).  Fallible operations (`parse_month_input`, `int(...)`,
`Decimal(...)`) return `Option`.  Timestamp fields (`created_at`, `paid_at`)
are not modelled: no statement below observes them and the generator only
fills them with the current wall-clock time.
-/

/-! ### Characters and digit strings -/

/-- ASCII digit test: the only characters `int(...)`/`Decimal(...)` accept as
digits in the fragment the app uses. -/
def isDigitCh (c : Char) : Bool := 48 ≤ c.toNat && c.toNat ≤ 57

/-- Whitespace stripped by Python's `str.strip()` / `int(...)` / `Decimal(...)`
(ASCII fragment). -/
def pyIsSpace (c : Char) : Bool :=
  c.toNat = 32 || c.toNat = 9 || c.toNat = 10 || c.toNat = 13 || c.toNat = 11 || c.toNat = 12

/-- The ASCII digit character for a digit value. -/
def digitCh (n : Nat) : Char := Char.ofNat (48 + n)

/-- Decimal digit characters of a natural number, most significant first
(the uniquely unpadded representation, as printed by `str`/`strftime`). -/
def natDigits (n : Nat) : List Char :=
  if h : n < 10 then [digitCh n]
  else natDigits (n / 10) ++ [digitCh (n % 10)]
decreasing_by exact Nat.div_lt_self (by omega) (by omega)

/-- Numeric value of a digit string (the value `int(...)` computes once the
string is known to be all digits). -/
def digitsToNat (ds : List Char) : Nat :=
  ds.foldl (fun a c => a * 10 + (c.toNat - 48)) 0

/-- Left-pad a digit string with `'0'` to at least `w` characters
(`strftime` zero-padding such as `%m`). -/
def padDigits (w : Nat) (n : Nat) : List Char :=
  List.replicate (w - (natDigits n).length) '0' ++ natDigits n

/-- Python `str.strip()` on a character list. -/
def pyStrip (cs : List Char) : List Char :=
  ((cs.dropWhile pyIsSpace).reverse.dropWhile pyIsSpace).reverse

/-- Python `str.split(sep)` for a one-character separator: always returns at
least one (possibly empty) part. -/
def splitOnChar (sep : Char) : List Char → List (List Char)
  | [] => [[]]
  | c :: rest =>
    if c = sep then [] :: splitOnChar sep rest
    else
      match splitOnChar sep rest with
      | [] => [[c]]
      | h :: t => (c :: h) :: t

/-- Python `str.replace(pat, "")` for a fixed pattern: removes all
(left-to-right, non-overlapping) occurrences of `pat`. -/
def removeSub (pat : List Char) : List Char → List Char
  | [] => []
  | c :: rest =>
    if h : pat ≠ [] ∧ pat.isPrefixOf (c :: rest) then
      removeSub pat ((c :: rest).drop pat.length)
    else c :: removeSub pat rest
termination_by l => l.length
decreasing_by
  · have hp : 0 < pat.length := List.length_pos.mpr h.1
    simp only [List.length_drop, List.length_cons]
    omega
  · simp only [List.length_cons]
    omega

/-- Python `int(s)` on the ASCII fragment: strips whitespace, accepts an
optional sign followed by a nonempty digit string. -/
def pyIntCore (r : List Char) : Option Int :=
  if r ≠ [] ∧ r.all isDigitCh then some (digitsToNat r : Int) else none

def pyInt (cs : List Char) : Option Int :=
  match pyStrip cs with
  | [] => pyIntCore []
  | c :: r =>
    if c = '+' then pyIntCore r
    else if c = '-' then (pyIntCore r).map (fun z => -z)
    else pyIntCore (c :: r)

/-! ### Dates and month arithmetic -/

/-- A `datetime.date`: year, month, day as (unbounded) integers.  The Python
library restricts years to `[1, 9999]`; the embedding keeps the components
unbounded and the parsing function below enforces the library's bounds where
the source relies on them. -/
structure PyDate where
  year : Int
  month : Int
  day : Int
deriving DecidableEq, Repr

/-- `calendar.isleap`. -/
def isLeapYear (y : Int) : Bool := y % 4 = 0 && (y % 100 ≠ 0 || y % 400 = 0)

/-- `calendar.monthrange(y, m)[1]`: number of days of month `m` of year `y`
(only ever used with `1 ≤ m ≤ 12`). -/
def daysInMonth (y : Int) (m : Int) : Int :=
  if m = 2 then (if isLeapYear y then 29 else 28)
  else if m = 4 ∨ m = 6 ∨ m = 9 ∨ m = 11 then 30
  else 31

/-- Python `date` ordering (lexicographic on year, month, day). -/
def dateLt (a b : PyDate) : Bool :=
  a.year < b.year ||
    (a.year = b.year && (a.month < b.month || (a.month = b.month && a.day < b.day)))

/-- `add_months` from `app.py`: shift a date by `months` months, clamping the
day to the last day of the target month.  Python's `//` and `%` on a positive
divisor agree with Lean's Euclidean `Int` division used here. -/
def add_months (sourcedate : PyDate) (months : Int) : PyDate :=
  let month0 := sourcedate.month - 1 + months
  let year := sourcedate.year + month0 / 12
  let month := month0 % 12 + 1
  { year := year, month := month,
    day := min sourcedate.day (daysInMonth year month) }

/-- `month_key_from_date`: `dt.strftime("%Y-%m")` (glibc behavior: the year is
printed unpadded, the month zero-padded to two digits; all dates fed to it by
the app have positive years). -/
def month_key_from_date (d : PyDate) : String :=
  String.mk (natDigits d.year.toNat ++ '-' :: padDigits 2 d.month.toNat)

/-- `parse_month_input`: split on `"-"`, read the first two parts with
`int(...)`, and build `date(y, m, 1)`; any failure (including the
`datetime` year/month bounds) yields `none`. -/
def parse_month_input (s : String) : Option PyDate :=
  if s = "" then none
  else
    match splitOnChar '-' s.toList with
    | p0 :: p1 :: _ =>
      match pyInt p0 with
      | none => none
      | some y =>
        match pyInt p1 with
        | none => none
        | some m =>
          if 1 ≤ y ∧ y ≤ 9999 ∧ 1 ≤ m ∧ m ≤ 12 then some ⟨y, m, 1⟩ else none
    | _ => none

/-! ### Money: `Decimal` parsing and quantization -/

/-- `Decimal.quantize(Decimal("0.01"), rounding=ROUND_HALF_UP)`: round to two
decimal places, ties away from zero. -/
def roundHalfUp2 (q : Rat) : Rat :=
  if q < 0 then -((⌊(-q) * 100 + 1/2⌋ : Int) : Rat) / 100
  else ((⌊q * 100 + 1/2⌋ : Int) : Rat) / 100

/-- `Decimal.quantize(Decimal("0.01"))` with the default context rounding
(`ROUND_HALF_EVEN`): round to two decimal places, ties to even. -/
def roundHalfEven2 (q : Rat) : Rat :=
  let f : Int := ⌊q * 100⌋
  let frac : Rat := q * 100 - (f : Rat)
  if frac < 1/2 then (f : Rat) / 100
  else if frac > 1/2 then ((f + 1 : Int) : Rat) / 100
  else if f % 2 = 0 then (f : Rat) / 100 else ((f + 1 : Int) : Rat) / 100

/-- The `Decimal(string)` constructor on the sign/digits/point fragment the
app's money strings use (exponent and special-value forms are outside the
domain of every statement below): optional sign, then digits with at most one
decimal point and at least one digit.  The constructor itself strips
surrounding whitespace. -/
def parseDecCore (r : List Char) : Option Rat :=
  match splitOnChar '.' r with
  | [ip] => if ip ≠ [] ∧ ip.all isDigitCh then some ((digitsToNat ip : Nat) : Rat) else none
  | [ip, fp] =>
    if (ip ≠ [] ∨ fp ≠ []) ∧ ip.all isDigitCh ∧ fp.all isDigitCh then
      some (((digitsToNat ip : Nat) : Rat) + ((digitsToNat fp : Nat) : Rat) / (10 ^ fp.length : Nat))
    else none
  | _ => none

def parseDec (cs : List Char) : Option Rat :=
  match pyStrip cs with
  | [] => parseDecCore []
  | c :: r =>
    if c = '+' then parseDecCore r
    else if c = '-' then (parseDecCore r).map (fun q => -q)
    else parseDecCore (c :: r)

/-- `money_to_decimal` from `app.py`: strip spaces and an `R$` prefix; if both
`.` and `,` occur, drop the dots and use the comma as decimal point; if only
`,` occurs, use it as decimal point; otherwise parse as-is; finally quantize
half-up to two decimals.  `None` and unparsable strings raise
(`InvalidOperation`), modelled as `none`. -/
def money_to_decimal (value_str : Option String) : Option Rat :=
  match value_str with
  | none => none
  | some s =>
    let v1 := (pyStrip s.toList).filter (fun c => c ≠ ' ')
    let v2 := pyStrip (removeSub ['R', '$'] v1)
    let v3 :=
      if ('.' ∈ v2) ∧ (',' ∈ v2) then
        (v2.filter (fun c => c ≠ '.')).map (fun c => if c = ',' then '.' else c)
      else if (',' ∈ v2) ∧ ¬ ('.' ∈ v2) then
        v2.map (fun c => if c = ',' then '.' else c)
      else v2
    (parseDec v3).map roundHalfUp2

/-- `split_amount_into_installments` from `app.py`: quantize the total, give
every installment the half-up rounded value of `total / n`, and absorb the
rounding difference into the last installment. -/
def split_amount_into_installments (amount : Rat) (n : Nat) : List Rat :=
  if n ≤ 1 then [roundHalfEven2 amount]
  else
    let amount2 := roundHalfUp2 amount
    let base := roundHalfUp2 (amount2 / (n : Rat))
    let parts := List.replicate n base
    let diff := amount2 - parts.sum
    if diff ≠ 0 then parts.dropLast ++ [roundHalfUp2 (base + diff)]
    else parts

/-! ### The `Conta` record -/

/-- The `Conta` entity (one bill).  Fields keep the source's names; amounts
are `Rat` (two-decimal `Decimal` values in the source), the month is the raw
`YYYY-MM` string, `rec_type` is `none`, `"indef"` or `"fixed"`, and
`rec_origin` is the (optional) id of the originating bill.
`recorrencia_months` and `parcelas` are clamped to `≥ 0` / `≥ 1` by the
constructor, hence `Nat`.  Timestamps are not modelled (see the header). -/
structure Conta where
  id : String
  name : String
  amount_decimal : Rat
  month : String
  category : String
  notes : String
  status : String
  recorrente : Bool
  rec_type : Option String
  recorrencia_months : Nat
  rec_origin : Option String
  parcelada : Bool
  parcelas : Nat
  parcel_index : Option Nat
  parcel_total : Option Nat
deriving DecidableEq, Repr

/-- Python truthiness of the `rec_origin` field: `None` and `""` are falsy. -/
def falsyRecOrigin (c : Conta) : Bool :=
  match c.rec_origin with
  | none => true
  | some r => r = ""

/-- Python `c.rec_origin == origin_id` (where `origin_id` is a string):
`None` never equals a string. -/
def recOriginIs (c : Conta) (origin_id : String) : Bool :=
  match c.rec_origin with
  | none => false
  | some r => r = origin_id

/-! ### `DataManager.ensure_recurring_for_month` -/

/-- Origin selection of the generator:
`rec_type in ("indef", "fixed") and not rec_origin`. -/
def isRecOriginCandidate (o : Conta) : Bool :=
  (o.rec_type = some "indef" || o.rec_type = some "fixed") && falsyRecOrigin o

/-- The generator's duplicate check (`exists` in the source): some bill of the
target month is already linked to this origin, or — legacy fallback — is an
unlinked bill with the origin's name and month and a different id. -/
def existsCheck (contas : List Conta) (month_key : String) (o : Conta) : Bool :=
  contas.any fun c =>
    c.month = month_key &&
      (recOriginIs c o.id ||
        (falsyRecOrigin c && c.name = o.name && c.month = o.month && c.id ≠ o.id))

/-- Carry-forward lookup (`prev_inst` in the source): first bill of the month
`prev_key` linked to this origin, or matching the legacy name/month fallback. -/
def prevInst (contas : List Conta) (prev_key : String) (o : Conta) : Option Conta :=
  contas.find? fun c =>
    c.month = prev_key &&
      (recOriginIs c o.id || (falsyRecOrigin c && c.name = o.name && c.month = o.month))

/-- Duplicate check of the fixed branch (`fixed_exists` in the source): like
`existsCheck` but without the `id` inequality in the fallback. -/
def fixedExists (contas : List Conta) (month_key : String) (o : Conta) : Bool :=
  contas.any fun c =>
    c.month = month_key &&
      (recOriginIs c o.id || (falsyRecOrigin c && c.name = o.name && c.month = o.month))

/-- The `Conta(...)` constructor call of the indefinite branch: amount `0.00`,
linked to the origin (the constructor quantizes the amount with the context
default rounding; `id` is assigned afterwards, see `ensure_recurring_for_month`). -/
def mkIndefInstance (o : Conta) (month_key : String) : Conta :=
  { id := "", name := o.name, amount_decimal := roundHalfEven2 0,
    month := month_key, category := o.category, notes := o.notes,
    status := "pending", recorrente := true, rec_type := some "indef",
    recorrencia_months := 0, rec_origin := some o.id,
    parcelada := false, parcelas := 1, parcel_index := none, parcel_total := none }

/-- The `Conta(...)` constructor call of the fixed branch: amount carried
forward, span copied from the origin. -/
def mkFixedInstance (o : Conta) (month_key : String) (v : Rat) : Conta :=
  { id := "", name := o.name, amount_decimal := roundHalfEven2 v,
    month := month_key, category := o.category, notes := o.notes,
    status := "pending", recorrente := true, rec_type := some "fixed",
    recorrencia_months := o.recorrencia_months, rec_origin := some o.id,
    parcelada := false, parcelas := 1, parcel_index := none, parcel_total := none }

/-- The carried-forward amount of the fixed branch: the amount of the first
bill found for the month before `next_date` (linked to the origin or matching
the legacy fallback), defaulting to the origin's own amount. -/
def carriedValue (contas : List Conta) (o : Conta) (next_date : PyDate) : Rat :=
  match prevInst contas (month_key_from_date (add_months next_date (-1))) o with
  | some p => p.amount_decimal
  | none => o.amount_decimal

/-- The bills `ensure_recurring_for_month` generates from one origin `o`
(scanning the pre-call list `contas` for duplicates and carry-forward, exactly
as the source scans `self.contas` before the final `extend`). -/
def originAdditions (contas : List Conta) (month_key : String) (o : Conta) : List Conta :=
  if isRecOriginCandidate o then
    match parse_month_input o.month, parse_month_input month_key with
    | some origin_date, some target_date =>
      if dateLt target_date origin_date then []
      else if existsCheck contas month_key o then []
      else if o.rec_type = some "indef" then
        let inst_month := add_months origin_date 1
        if month_key_from_date inst_month = month_key then [mkIndefInstance o month_key]
        else []
      else if o.rec_type = some "fixed" ∧ 0 < o.recorrencia_months then
        (List.range' 1 (o.recorrencia_months - 1)).flatMap fun i =>
          let next_date := add_months origin_date (i : Int)
          if month_key_from_date next_date = month_key then
            if fixedExists contas month_key o then []
            else [mkFixedInstance o month_key (carriedValue contas o next_date)]
          else []
      else []
    | _, _ => []
  else []

/-- All bills one call of the generator appends (`contas_to_add`), in order,
still with placeholder ids. -/
def ensureAdditions (contas : List Conta) (month_key : String) : List Conta :=
  contas.flatMap (originAdditions contas month_key)

/-- `ensure_recurring_for_month`: append the generated instances to the store.
`ids` supplies the `uuid4()` values for the new bills (position in the batch
to fresh id). -/
def ensure_recurring_for_month (ids : Nat → String) (contas : List Conta)
    (month_key : String) : List Conta :=
  contas ++ (ensureAdditions contas month_key).enum.map fun p => { p.2 with id := ids p.1 }

/-! ### The `/cadastrar` route (bill creation, recurring branches) -/

/-- `DataManager.update_conta`: replace the first bill with a matching id. -/
def updateConta : List Conta → Conta → List Conta
  | [], _ => []
  | c :: rest, u => if c.id = u.id then u :: rest else c :: updateConta rest u

/-- The success path of the `POST /cadastrar` handler, after form validation:
`value` is the parsed amount, `mes_date` the parsed month.  `ids` supplies the
`uuid4()` ids in creation order.  The `Conta` constructor's clamping
(`max(1, parcelas)` / `max(0, recorrencia_months)`) and amount quantization
are applied where the source constructs bills. -/
def cadastrarPost (ids : Nat → String) (contas : List Conta) (name : String)
    (value : Rat) (mes_date : PyDate) (category_name notes : String)
    (recorr_indef : Bool) (recorrencia_months : Nat) (parcelada : Bool)
    (parcelas : Nat) : List Conta :=
  let month_key := month_key_from_date mes_date
  let rec_type : Option String :=
    if recorr_indef then some "indef"
    else if 0 < recorrencia_months then some "fixed" else none
  let new0 : Conta :=
    { id := ids 0, name := name, amount_decimal := roundHalfEven2 value,
      month := month_key, category := category_name, notes := notes,
      status := "pending", recorrente := rec_type.isSome, rec_type := rec_type,
      recorrencia_months := recorrencia_months, rec_origin := none,
      parcelada := parcelada, parcelas := max 1 parcelas,
      parcel_index := none, parcel_total := none }
  let s1 := contas ++ [new0]
  let doParcel := parcelada ∧ 1 < parcelas
  let parts := split_amount_into_installments value parcelas
  let cur : Conta :=
    if doParcel then
      { new0 with amount_decimal := parts.headI, parcel_index := some 1,
                  parcel_total := some parcelas }
    else new0
  let s2 := if doParcel then updateConta s1 cur else s1
  let s3 :=
    if doParcel then
      s2 ++ (List.range' 1 (parcelas - 1)).map fun i =>
        { id := ids i, name := name,
          amount_decimal := roundHalfEven2 (parts.getD i 0),
          month := month_key_from_date (add_months mes_date (i : Int)),
          category := category_name, notes := notes, status := "pending",
          recorrente := false, rec_type := none, recorrencia_months := 0,
          rec_origin := none, parcelada := true, parcelas := max 1 parcelas,
          parcel_index := some (i + 1), parcel_total := some parcelas }
    else s2
  let idBase := if doParcel then parcelas else 1
  if rec_type = some "fixed" ∧ 0 < recorrencia_months then
    let cur' := { cur with rec_origin := some cur.id }
    let s4 := updateConta s3 cur'
    s4 ++ (List.range' 1 (recorrencia_months - 1)).map fun i =>
      { id := ids (idBase + i - 1), name := name,
        amount_decimal := roundHalfEven2 value,
        month := month_key_from_date (add_months mes_date (i : Int)),
        category := category_name, notes := notes, status := "pending",
        recorrente := true, rec_type := some "fixed",
        recorrencia_months := recorrencia_months, rec_origin := some cur.id,
        parcelada := false, parcelas := 1, parcel_index := none,
        parcel_total := none }
  else if rec_type = some "indef" then
    let cur' := { cur with rec_origin := some cur.id }
    let s4 := updateConta s3 cur'
    s4 ++ [{ id := ids idBase, name := name, amount_decimal := roundHalfEven2 0,
             month := month_key_from_date (add_months mes_date 1),
             category := category_name, notes := notes, status := "pending",
             recorrente := true, rec_type := some "indef",
             recorrencia_months := 0, rec_origin := some cur.id,
             parcelada := false, parcelas := 1, parcel_index := none,
             parcel_total := none }]
  else s3

/-- A date is a valid `datetime.date` value: month in range and day within
the month (years are unbounded in the embedding, see `PyDate`). -/
def validDate (d : PyDate) : Prop :=
  1 ≤ d.month ∧ d.month ≤ 12 ∧ 1 ≤ d.day ∧ d.day ≤ daysInMonth d.year d.month

/-! ### Sample data for concrete scenarios -/

/-- An injective uuid supply for concrete runs. -/
def sampleIds : Nat → String := fun n => String.mk (List.replicate (n + 1) 'g')

/-- Fixed-recurrence origin: `2024-01`, span 3, amount `100.00`. -/
def origemFixa : Conta :=
  { id := "A", name := "Net", amount_decimal := 100, month := "2024-01",
    category := "Internet", notes := "", status := "pending", recorrente := true,
    rec_type := some "fixed", recorrencia_months := 3, rec_origin := none,
    parcelada := false, parcelas := 1, parcel_index := none, parcel_total := none }

/-- The generated `2024-02` instance of `origemFixa` after the user edited its
amount to `150.00`. -/
def instanciaFev : Conta :=
  { id := "F", name := "Net", amount_decimal := 150, month := "2024-02",
    category := "Internet", notes := "", status := "pending", recorrente := true,
    rec_type := some "fixed", recorrencia_months := 3, rec_origin := some "A",
    parcelada := false, parcelas := 1, parcel_index := none, parcel_total := none }

/-- Indefinite-recurrence origin at `2024-01`. -/
def origemIndef : Conta :=
  { id := "B", name := "Luz", amount_decimal := 50, month := "2024-01",
    category := "Luz", notes := "", status := "pending", recorrente := true,
    rec_type := some "indef", recorrencia_months := 0, rec_origin := none,
    parcelada := false, parcelas := 1, parcel_index := none, parcel_total := none }

/-- A record with an unparsable month string. -/
def contaInvalida : Conta :=
  { id := "Z", name := "Bad", amount_decimal := 10, month := "not-a-month",
    category := "Outros", notes := "", status := "pending", recorrente := true,
    rec_type := some "indef", recorrencia_months := 0, rec_origin := none,
    parcelada := false, parcelas := 1, parcel_index := none, parcel_total := none }

/-- At most one generated instance per (origin id, month) pair. -/
def uniqueInstances (s : List Conta) : Prop :=
  ∀ oid m : String,
    (s.filter fun c => c.rec_origin = some oid && c.month = m).length ≤ 1

/-- All bill ids are pairwise distinct. -/
def distinctIds (s : List Conta) : Prop := (s.map Conta.id).Nodup

/-- A sequence of generator calls, threading the store and the position in
the uuid supply. -/
def ensureSeq (ids : Nat → String) (p : List Conta × Nat) (ks : List String) :
    List Conta × Nat :=
  ks.foldl (fun p k =>
    (ensure_recurring_for_month (fun j => ids (p.2 + j)) p.1 k,
      p.2 + (ensureAdditions p.1 k).length)) p

/-- A legacy bill: same name and month as `origemFixa`, no origin link. -/
def contaLegada : Conta :=
  { id := "L", name := "Net", amount_decimal := 100, month := "2024-01",
    category := "Internet", notes := "", status := "pending", recorrente := false,
    rec_type := none, recorrencia_months := 0, rec_origin := none,
    parcelada := false, parcelas := 1, parcel_index := none, parcel_total := none }

/-! ### Digit-string lemmas -/

theorem digitCh_toNat {m : Nat} (h : m < 10) : (digitCh m).toNat = 48 + m := by
  interval_cases m <;> decide

theorem isDigitCh_digitCh {m : Nat} (h : m < 10) : isDigitCh (digitCh m) = true := by
  interval_cases m <;> decide

theorem isDigitCh_toNat {c : Char} (h : isDigitCh c = true) :
    48 ≤ c.toNat ∧ c.toNat ≤ 57 := by
  simpa [isDigitCh] using h

theorem isDigitCh_ne {c : Char} (h : isDigitCh c = true) :
    c ≠ '-' ∧ c ≠ '+' ∧ c ≠ '.' ∧ c ≠ ',' ∧ c ≠ ' ' ∧ c ≠ 'R' ∧ c ≠ '$' ∧
      pyIsSpace c = false := by
  obtain ⟨h1, h2⟩ := isDigitCh_toNat h
  refine ⟨?_, ?_, ?_, ?_, ?_, ?_, ?_, ?_⟩
  · intro hc; subst hc; exact absurd h1 (by decide)
  · intro hc; subst hc; exact absurd h1 (by decide)
  · intro hc; subst hc; exact absurd h1 (by decide)
  · intro hc; subst hc; exact absurd h1 (by decide)
  · intro hc; subst hc; exact absurd h1 (by decide)
  · intro hc; subst hc; exact absurd h2 (by decide)
  · intro hc; subst hc; exact absurd h1 (by decide)
  · apply Bool.eq_false_iff.mpr
    intro hs
    simp only [pyIsSpace, Bool.or_eq_true, decide_eq_true_eq] at hs
    omega

theorem natDigits_ne_nil (n : Nat) : natDigits n ≠ [] := by
  rw [natDigits]
  split <;> simp

theorem natDigits_all_digit (n : Nat) : ∀ c ∈ natDigits n, isDigitCh c = true := by
  induction n using Nat.strong_induction_on with
  | _ n ih =>
    rw [natDigits]
    split
    · next h => simpa using isDigitCh_digitCh h
    · next h =>
      intro c hc
      rcases List.mem_append.mp hc with hc | hc
      · exact ih (n / 10) (Nat.div_lt_self (by omega) (by omega)) c hc
      · simp only [List.mem_singleton] at hc
        subst hc
        exact isDigitCh_digitCh (Nat.mod_lt n (by omega))

theorem digitsToNat_def (ds : List Char) :
    digitsToNat ds = ds.foldl (fun a c => a * 10 + (c.toNat - 48)) 0 := rfl

theorem digitsToNat_general (a : Nat) (ds : List Char) :
    ds.foldl (fun a c => a * 10 + (c.toNat - 48)) a =
      a * 10 ^ ds.length + digitsToNat ds := by
  induction ds generalizing a with
  | nil => simp [digitsToNat_def]
  | cons c ds ih =>
    have hc : digitsToNat (c :: ds) = (c.toNat - 48) * 10 ^ ds.length + digitsToNat ds := by
      rw [digitsToNat_def, List.foldl_cons, ih]
      ring
    rw [List.foldl_cons, ih, hc, List.length_cons]
    ring

theorem digitsToNat_append (xs ys : List Char) :
    digitsToNat (xs ++ ys) = digitsToNat xs * 10 ^ ys.length + digitsToNat ys := by
  rw [digitsToNat_def, List.foldl_append, ← digitsToNat_def, digitsToNat_general]

theorem digitsToNat_natDigits (n : Nat) : digitsToNat (natDigits n) = n := by
  induction n using Nat.strong_induction_on with
  | _ n ih =>
    rw [natDigits]
    split
    · next h =>
      simp only [digitsToNat_def, List.foldl_cons, List.foldl_nil]
      rw [digitCh_toNat h]
      omega
    · next h =>
      rw [digitsToNat_append, ih (n / 10) (Nat.div_lt_self (by omega) (by omega))]
      simp only [digitsToNat_def, List.length_singleton, List.foldl_cons, List.foldl_nil]
      rw [digitCh_toNat (Nat.mod_lt n (by omega))]
      omega

theorem digitsToNat_replicate_zero (j : Nat) (ds : List Char) :
    digitsToNat (List.replicate j '0' ++ ds) = digitsToNat ds := by
  rw [digitsToNat_append]
  have hz : digitsToNat (List.replicate j '0') = 0 := by
    induction j with
    | zero => rfl
    | succ j ih =>
      rw [List.replicate_succ, digitsToNat_def, List.foldl_cons]
      have h0 : 0 * 10 + ('0'.toNat - 48) = 0 := by decide
      rw [h0, ← digitsToNat_def]
      exact ih
  rw [hz]
  omega

theorem padDigits_all_digit (w n : Nat) : ∀ c ∈ padDigits w n, isDigitCh c = true := by
  intro c hc
  rcases List.mem_append.mp hc with hc | hc
  · rcases List.eq_of_mem_replicate hc with rfl
    decide
  · exact natDigits_all_digit n c hc

theorem padDigits_ne_nil (w n : Nat) : padDigits w n ≠ [] := by
  simp [padDigits, natDigits_ne_nil n]

theorem digitsToNat_padDigits (w n : Nat) : digitsToNat (padDigits w n) = n := by
  rw [padDigits, digitsToNat_replicate_zero, digitsToNat_natDigits]

/-! ### Strip and split lemmas -/

theorem dropWhile_eq_self_of_none {p : Char → Bool} {l : List Char}
    (h : ∀ c ∈ l, p c = false) : l.dropWhile p = l := by
  cases l with
  | nil => rfl
  | cons c rest => simp [List.dropWhile_cons, h c (by simp)]

theorem pyStrip_eq_self {l : List Char} (h : ∀ c ∈ l, pyIsSpace c = false) :
    pyStrip l = l := by
  rw [pyStrip, dropWhile_eq_self_of_none h, dropWhile_eq_self_of_none, List.reverse_reverse]
  intro c hc
  exact h c (List.mem_reverse.mp hc)

theorem splitOnChar_ne_nil (sep : Char) (l : List Char) : splitOnChar sep l ≠ [] := by
  cases l with
  | nil => simp [splitOnChar]
  | cons c rest =>
    rw [splitOnChar]
    split
    · simp
    · split <;> simp

theorem splitOnChar_of_not_mem {sep : Char} {l : List Char} (h : sep ∉ l) :
    splitOnChar sep l = [l] := by
  induction l with
  | nil => rfl
  | cons c rest ih =>
    rw [splitOnChar]
    have hc : ¬ c = sep := fun hc => h (hc ▸ List.mem_cons_self c rest)
    rw [if_neg hc, ih (fun hr => h (List.mem_cons_of_mem c hr))]

theorem splitOnChar_append {sep : Char} {a : List Char} (b : List Char)
    (h : sep ∉ a) : splitOnChar sep (a ++ sep :: b) = a :: splitOnChar sep b := by
  induction a with
  | nil => simp [splitOnChar]
  | cons c rest ih =>
    have hc : ¬ c = sep := fun hc => h (hc ▸ List.mem_cons_self c rest)
    rw [List.cons_append, splitOnChar, if_neg hc,
      ih (fun hr => h (List.mem_cons_of_mem c hr))]

theorem pyInt_digits {ds : List Char} (hne : ds ≠ [])
    (hd : ∀ c ∈ ds, isDigitCh c = true) : pyInt ds = some (digitsToNat ds : Int) := by
  have hstrip : pyStrip ds = ds :=
    pyStrip_eq_self (fun c hc => (isDigitCh_ne (hd c hc)).2.2.2.2.2.2.2)
  have hall : ds.all isDigitCh = true := List.all_eq_true.mpr hd
  cases ds with
  | nil => exact absurd rfl hne
  | cons c rest =>
    have hc := isDigitCh_ne (hd c (by simp))
    rw [pyInt]
    simp only [hstrip]
    rw [if_neg hc.2.1, if_neg hc.1, pyIntCore, if_pos ⟨by simp, hall⟩]

/-! ### Month-key round-trip lemmas -/

theorem not_dash_mem_natDigits (n : Nat) : '-' ∉ natDigits n := by
  intro hm
  have := natDigits_all_digit n '-' hm
  simp [isDigitCh] at this

theorem not_dash_mem_padDigits (w n : Nat) : '-' ∉ padDigits w n := by
  intro hm
  have := padDigits_all_digit w n '-' hm
  simp [isDigitCh] at this

theorem month_key_from_date_toList (d : PyDate) :
    (month_key_from_date d).toList =
      natDigits d.year.toNat ++ '-' :: padDigits 2 d.month.toNat := rfl

theorem month_key_from_date_ne_empty (d : PyDate) : month_key_from_date d ≠ "" := by
  intro h
  have h2 : (month_key_from_date d).toList = "".toList := by rw [h]
  rw [month_key_from_date_toList] at h2
  simp at h2

theorem splitOnChar_month_key (d : PyDate) :
    splitOnChar '-' (month_key_from_date d).toList =
      [natDigits d.year.toNat, padDigits 2 d.month.toNat] := by
  rw [month_key_from_date_toList, splitOnChar_append _ (not_dash_mem_natDigits _),
    splitOnChar_of_not_mem (not_dash_mem_padDigits _ _)]

theorem pyInt_natDigits (n : Nat) : pyInt (natDigits n) = some (n : Int) := by
  rw [pyInt_digits (natDigits_ne_nil n) (natDigits_all_digit n), digitsToNat_natDigits]

theorem pyInt_padDigits (w n : Nat) : pyInt (padDigits w n) = some (n : Int) := by
  rw [pyInt_digits (padDigits_ne_nil w n) (padDigits_all_digit w n), digitsToNat_padDigits]

theorem parse_month_key {d : PyDate} (h1 : 1 ≤ d.year) (h2 : d.year ≤ 9999)
    (h3 : 1 ≤ d.month) (h4 : d.month ≤ 12) :
    parse_month_input (month_key_from_date d) = some ⟨d.year, d.month, 1⟩ := by
  rw [parse_month_input, if_neg (month_key_from_date_ne_empty d)]
  simp only [splitOnChar_month_key, pyInt_natDigits, pyInt_padDigits]
  rw [Int.toNat_of_nonneg (by omega : (0 : Int) ≤ d.year),
    Int.toNat_of_nonneg (by omega : (0 : Int) ≤ d.month)]
  simp [h1, h2, h3, h4]

theorem parse_month_key_big {d : PyDate} (h1 : 10000 ≤ d.year)
    (h3 : 1 ≤ d.month) (h4 : d.month ≤ 12) :
    parse_month_input (month_key_from_date d) = none := by
  rw [parse_month_input, if_neg (month_key_from_date_ne_empty d)]
  simp only [splitOnChar_month_key, pyInt_natDigits, pyInt_padDigits]
  rw [Int.toNat_of_nonneg (by omega : (0 : Int) ≤ d.year),
    Int.toNat_of_nonneg (by omega : (0 : Int) ≤ d.month)]
  have : ¬ (1 ≤ d.year ∧ d.year ≤ 9999 ∧ 1 ≤ d.month ∧ d.month ≤ 12) := by omega
  simp [this]

theorem parse_month_input_bounds {s : String} {d : PyDate}
    (h : parse_month_input s = some d) :
    1 ≤ d.year ∧ d.year ≤ 9999 ∧ 1 ≤ d.month ∧ d.month ≤ 12 ∧ d.day = 1 := by
  rw [parse_month_input] at h
  by_cases hs : s = ""
  · rw [if_pos hs] at h; exact absurd h (by simp)
  · rw [if_neg hs] at h
    rcases hsp : splitOnChar '-' s.toList with _ | ⟨p0, _ | ⟨p1, rest⟩⟩ <;> rw [hsp] at h
    · exact absurd h (by simp)
    · exact absurd h (by simp)
    · replace h : (match pyInt p0 with
        | none => none
        | some y =>
          match pyInt p1 with
          | none => none
          | some m =>
            if 1 ≤ y ∧ y ≤ 9999 ∧ 1 ≤ m ∧ m ≤ 12 then
              some (⟨y, m, 1⟩ : PyDate)
            else none) = some d := h
      rcases hy : pyInt p0 with _ | y <;> rw [hy] at h
      · exact absurd h (by simp)
      · rcases hm : pyInt p1 with _ | m <;> rw [hm] at h
        · exact absurd h (by simp)
        · replace h : (if 1 ≤ y ∧ y ≤ 9999 ∧ 1 ≤ m ∧ m ≤ 12 then
              some (⟨y, m, 1⟩ : PyDate) else none) = some d := h
          by_cases hb : 1 ≤ y ∧ y ≤ 9999 ∧ 1 ≤ m ∧ m ≤ 12
          · rw [if_pos hb] at h
            obtain rfl : PyDate.mk y m 1 = d := by simpa using h
            exact ⟨hb.1, hb.2.1, hb.2.2.1, hb.2.2.2, rfl⟩
          · rw [if_neg hb] at h; exact absurd h (by simp)

/-! ### `add_months` arithmetic -/

theorem add_months_month_index (d : PyDate) (δ : Int) :
    12 * (add_months d δ).year + (add_months d δ).month =
      12 * d.year + d.month + δ := by
  simp only [add_months]
  omega

theorem add_months_month_bounds (d : PyDate) (δ : Int) :
    1 ≤ (add_months d δ).month ∧ (add_months d δ).month ≤ 12 := by
  simp only [add_months]
  omega

theorem add_months_year_ge {d : PyDate} {δ : Int} (h2 : 1 ≤ d.month)
    (h3 : d.month ≤ 12) (hδ : 0 ≤ δ) :
    d.year ≤ (add_months d δ).year := by
  have h1 := add_months_month_index d δ
  have h2 := add_months_month_bounds d δ
  omega

theorem add_months_day (d : PyDate) (δ : Int) :
    (add_months d δ).day =
      min d.day (daysInMonth (add_months d δ).year (add_months d δ).month) := rfl

/-- If a generated month key both equals `month_key_from_date e` and parses
successfully, then the parse result is exactly `e` with day 1 (and `e` is in
the `datetime` range).  This is the key injectivity fact relating the raw
string comparisons of the generator to month arithmetic. -/
theorem key_determines_date {e : PyDate} {k : String} {td : PyDate}
    (h1 : 1 ≤ e.year) (h3 : 1 ≤ e.month) (h4 : e.month ≤ 12)
    (hk : month_key_from_date e = k) (hp : parse_month_input k = some td) :
    e.year ≤ 9999 ∧ td = ⟨e.year, e.month, 1⟩ := by
  subst hk
  by_cases h2 : e.year ≤ 9999
  · have := parse_month_key h1 h2 h3 h4
    rw [this] at hp
    exact ⟨h2, by simpa using hp.symm⟩
  · have := parse_month_key_big (by omega) h3 h4
    rw [this] at hp
    exact absurd hp (by simp)

/-! ### Structural lemmas about the generator -/

theorem originAdditions_not_candidate {s : List Conta} {k : String} {o : Conta}
    (h : isRecOriginCandidate o = false) : originAdditions s k o = [] := by
  rw [originAdditions, h]
  simp

theorem originAdditions_parse_origin_none {s : List Conta} {k : String} {o : Conta}
    (h : parse_month_input o.month = none) : originAdditions s k o = [] := by
  rw [originAdditions, h]
  split <;> simp

theorem originAdditions_parse_target_none {s : List Conta} {k : String} {o : Conta}
    (h : parse_month_input k = none) : originAdditions s k o = [] := by
  rw [originAdditions, h]
  split
  · cases hp : parse_month_input o.month <;> simp
  · rfl

theorem originAdditions_exists {s : List Conta} {k : String} {o : Conta}
    (h : existsCheck s k o = true) : originAdditions s k o = [] := by
  rw [originAdditions]
  split
  · cases hp : parse_month_input o.month with
    | none => simp
    | some od =>
      cases hq : parse_month_input k with
      | none => simp
      | some td =>
        simp only [h]
        split <;> simp
  · rfl

theorem originAdditions_indef_eq {s : List Conta} {k : String} {o : Conta}
    {od td : PyDate}
    (hcand : isRecOriginCandidate o = true)
    (hp1 : parse_month_input o.month = some od)
    (hp2 : parse_month_input k = some td)
    (hlt : dateLt td od = false)
    (hex : existsCheck s k o = false)
    (hindef : o.rec_type = some "indef") :
    originAdditions s k o =
      (if month_key_from_date (add_months od 1) = k then [mkIndefInstance o k]
       else []) := by
  rw [originAdditions, hcand, hp1, hp2]
  simp only [hlt, hex, hindef, if_true, if_pos rfl, Bool.false_eq_true, if_false,
    if_true]

theorem originAdditions_fixed_eq {s : List Conta} {k : String} {o : Conta}
    {od td : PyDate}
    (hcand : isRecOriginCandidate o = true)
    (hp1 : parse_month_input o.month = some od)
    (hp2 : parse_month_input k = some td)
    (hlt : dateLt td od = false)
    (hex : existsCheck s k o = false)
    (hfixed : o.rec_type = some "fixed") (hn : 0 < o.recorrencia_months) :
    originAdditions s k o =
      (List.range' 1 (o.recorrencia_months - 1)).flatMap (fun i =>
        if month_key_from_date (add_months od (i : Int)) = k then
          (if fixedExists s k o then []
           else [mkFixedInstance o k (carriedValue s o (add_months od (i : Int)))])
        else []) := by
  rw [originAdditions, hcand, hp1, hp2]
  simp only [hlt, hex, Bool.false_eq_true, if_false, if_true, hfixed]
  rw [if_neg (by decide : ¬ (some "fixed" : Option String) = some "indef")]
  rw [if_pos (⟨trivial, hn⟩ : True ∧ 0 < o.recorrencia_months)]

theorem originAdditions_target_before {s : List Conta} {k : String} {o : Conta}
    {od td : PyDate}
    (hp1 : parse_month_input o.month = some od)
    (hp2 : parse_month_input k = some td)
    (h : dateLt td od = true) : originAdditions s k o = [] := by
  rw [originAdditions]
  split
  · rw [hp1, hp2]
    simp only [h, if_true]
  · rfl

theorem originAdditions_fixed_zero {s : List Conta} {k : String} {o : Conta}
    (hfixed : o.rec_type = some "fixed") (hn : o.recorrencia_months = 0) :
    originAdditions s k o = [] := by
  rw [originAdditions]
  split
  · split
    · split
      · rfl
      · split
        · rfl
        · split
          · next hi => rw [hfixed] at hi; exact absurd hi (by decide)
          · split
            · next hi => exact absurd hi.2 (by omega)
            · rfl
    · rfl
  · rfl

theorem isRecOriginCandidate_iff {o : Conta} :
    isRecOriginCandidate o = true ↔
      (o.rec_type = some "indef" ∨ o.rec_type = some "fixed") ∧
        falsyRecOrigin o = true := by
  simp [isRecOriginCandidate]

theorem mem_originAdditions {s : List Conta} {k : String} {o c : Conta}
    (hc : c ∈ originAdditions s k o) :
    isRecOriginCandidate o = true ∧ existsCheck s k o = false ∧
      c.month = k ∧ c.rec_origin = some o.id ∧ c.rec_type = o.rec_type ∧
      c.recorrencia_months =
        (if o.rec_type = some "indef" then 0 else o.recorrencia_months) ∧
      ∃ od td : PyDate, parse_month_input o.month = some od ∧
        parse_month_input k = some td ∧ dateLt td od = false ∧
        ∃ i : Nat, 1 ≤ i ∧ month_key_from_date (add_months od (i : Int)) = k := by
  by_cases hcand : isRecOriginCandidate o = true
  case neg =>
    rw [originAdditions_not_candidate (Bool.not_eq_true _ ▸ hcand)] at hc
    exact absurd hc (by simp)
  cases hp1 : parse_month_input o.month with
  | none => rw [originAdditions_parse_origin_none hp1] at hc; exact absurd hc (by simp)
  | some od =>
  cases hp2 : parse_month_input k with
  | none => rw [originAdditions_parse_target_none hp2] at hc; exact absurd hc (by simp)
  | some td =>
  by_cases hlt : dateLt td od = true
  case pos =>
    rw [originAdditions_target_before hp1 hp2 hlt] at hc
    exact absurd hc (by simp)
  have hltf : dateLt td od = false := by
    cases h : dateLt td od
    · rfl
    · exact absurd h hlt
  by_cases hex : existsCheck s k o = true
  case pos => rw [originAdditions_exists hex] at hc; exact absurd hc (by simp)
  have hexf : existsCheck s k o = false := by
    cases h : existsCheck s k o
    · rfl
    · exact absurd h hex
  rcases (isRecOriginCandidate_iff.mp hcand).1 with hindef | hfixed
  · rw [originAdditions_indef_eq hcand hp1 hp2 hltf hexf hindef] at hc
    split at hc
    · next hguard =>
      simp only [List.mem_singleton] at hc
      subst hc
      refine ⟨hcand, hexf, rfl, rfl, ?_, ?_, od, td, rfl, rfl, hltf, 1, le_refl 1, ?_⟩
      · rw [mkIndefInstance, hindef]
      · rw [mkIndefInstance, hindef]
        simp
      · simpa using hguard
    · exact absurd hc (by simp)
  · by_cases hn : 0 < o.recorrencia_months
    case neg =>
      rw [originAdditions_fixed_zero hfixed (by omega)] at hc
      exact absurd hc (by simp)
    rw [originAdditions_fixed_eq hcand hp1 hp2 hltf hexf hfixed hn] at hc
    rcases List.mem_flatMap.mp hc with ⟨i, hi, hci⟩
    have hi1 : 1 ≤ i := by
      have hb : 1 ≤ i ∧ i < 1 + (o.recorrencia_months - 1) := by simpa using hi
      omega
    split at hci
    · next hguard =>
      split at hci
      · exact absurd hci (by simp)
      · simp only [List.mem_singleton] at hci
        subst hci
        refine ⟨hcand, hexf, rfl, rfl, ?_, ?_, od, td, rfl, rfl, hltf, i, hi1, hguard⟩
        · rw [mkFixedInstance, hfixed]
        · rw [mkFixedInstance, hfixed]
          simp
    · exact absurd hci (by simp)

/-! ### Scans over extended stores and id assignment -/

theorem existsCheck_append (s1 s2 : List Conta) (k : String) (o : Conta) :
    existsCheck (s1 ++ s2) k o = (existsCheck s1 k o || existsCheck s2 k o) := by
  simp [existsCheck, List.any_append]

theorem fixedExists_append (s1 s2 : List Conta) (k : String) (o : Conta) :
    fixedExists (s1 ++ s2) k o = (fixedExists s1 k o || fixedExists s2 k o) := by
  simp [fixedExists, List.any_append]

theorem prevInst_append (s1 s2 : List Conta) (pk : String) (o : Conta) :
    prevInst (s1 ++ s2) pk o = (prevInst s1 pk o).or (prevInst s2 pk o) := by
  simp [prevInst, List.find?_append]

theorem existsCheck_of_mem {s : List Conta} {k : String} {o c : Conta}
    (hc : c ∈ s) (hm : c.month = k) (hr : recOriginIs c o.id = true) :
    existsCheck s k o = true := by
  rw [existsCheck, List.any_eq_true]
  exact ⟨c, hc, by simp [hm, hr]⟩

/-- `ensure_recurring_for_month` only reassigns ids of the generated bills;
all other fields are as produced by `originAdditions`. -/
theorem mem_ensure_additions_part {ids : Nat → String} {s : List Conta}
    {k : String} {a : Conta}
    (ha : a ∈ (ensureAdditions s k).enum.map fun p => { p.2 with id := ids p.1 }) :
    ∃ c ∈ ensureAdditions s k, ∃ j : Nat, a = { c with id := ids j } := by
  rcases List.mem_map.mp ha with ⟨⟨j, c⟩, hp, rfl⟩
  refine ⟨c, ?_, j, rfl⟩
  have : c ∈ (ensureAdditions s k).enum.map Prod.snd := List.mem_map_of_mem Prod.snd hp
  rwa [List.enum_map_snd] at this

theorem mem_ensureAdditions {s : List Conta} {k : String} {c : Conta}
    (hc : c ∈ ensureAdditions s k) : ∃ o ∈ s, c ∈ originAdditions s k o :=
  List.mem_flatMap.mp hc

theorem ensure_eq_append (ids : Nat → String) (s : List Conta) (k : String) :
    ensure_recurring_for_month ids s k =
      s ++ (ensureAdditions s k).enum.map fun p => { p.2 with id := ids p.1 } := rfl

theorem ensure_of_additions_nil {ids : Nat → String} {s : List Conta} {k : String}
    (h : ensureAdditions s k = []) : ensure_recurring_for_month ids s k = s := by
  rw [ensure_eq_append, h]
  simp

/-! ### At most one offset can hit the target month -/

/-- Different positive offsets from a parsed origin date produce different
month keys whenever the target key parses: the month indices differ, so
`key_determines_date` forces equality. -/
theorem guard_offset_unique {od td : PyDate} {k : String} {i j : Nat}
    (hod : 1 ≤ od.year ∧ od.year ≤ 9999 ∧ 1 ≤ od.month ∧ od.month ≤ 12)
    (hp2 : parse_month_input k = some td)
    (hi : month_key_from_date (add_months od (i : Int)) = k)
    (hj : month_key_from_date (add_months od (j : Int)) = k) : i = j := by
  have hbi := add_months_month_bounds od (i : Int)
  have hbj := add_months_month_bounds od (j : Int)
  have hyi : 1 ≤ (add_months od (i : Int)).year :=
    le_trans hod.1 (add_months_year_ge hod.2.2.1 hod.2.2.2 (by omega))
  have hyj : 1 ≤ (add_months od (j : Int)).year :=
    le_trans hod.1 (add_months_year_ge hod.2.2.1 hod.2.2.2 (by omega))
  have hdi := key_determines_date hyi hbi.1 hbi.2 hi hp2
  have hdj := key_determines_date hyj hbj.1 hbj.2 hj hp2
  have hii := add_months_month_index od (i : Int)
  have hij := add_months_month_index od (j : Int)
  have hmk : (⟨(add_months od (i : Int)).year, (add_months od (i : Int)).month, 1⟩ : PyDate) =
      ⟨(add_months od (j : Int)).year, (add_months od (j : Int)).month, 1⟩ :=
    hdi.2.symm.trans hdj.2
  rw [PyDate.mk.injEq] at hmk
  omega

theorem recOriginIs_some {c : Conta} {r : String} (h : c.rec_origin = some r) :
    recOriginIs c r = true := by
  rw [recOriginIs, h]
  simp

theorem bool_eq_false_of_ne_true {b : Bool} (h : ¬ b = true) : b = false := by
  cases b
  · rfl
  · exact absurd rfl h

/-- A bill whose own month IS the target month never generates anything:
every candidate generation month lies strictly after the bill's month.
This applies in particular to the instances the generator itself creates. -/
theorem originAdditions_self_month {s : List Conta} {k : String} {a : Conta}
    (hmonth : a.month = k) : originAdditions s k a = [] := by
  by_cases hcand : isRecOriginCandidate a = true
  case neg => exact originAdditions_not_candidate (bool_eq_false_of_ne_true hcand)
  cases hp2 : parse_month_input k with
  | none => exact originAdditions_parse_target_none hp2
  | some td =>
  have hp1 : parse_month_input a.month = some td := by rw [hmonth]; exact hp2
  have hbounds := parse_month_input_bounds hp2
  have hlt : dateLt td td = false := by simp [dateLt]
  by_cases hex : existsCheck s k a = true
  · exact originAdditions_exists hex
  have hexf : existsCheck s k a = false := bool_eq_false_of_ne_true hex
  have hguard : ∀ i : Nat, 1 ≤ i → ¬ month_key_from_date (add_months td (i : Int)) = k := by
    intro i hi hgi
    have hb := add_months_month_bounds td (i : Int)
    have hy : 1 ≤ (add_months td (i : Int)).year :=
      le_trans hbounds.1
        (add_months_year_ge hbounds.2.2.1 hbounds.2.2.2.1 (by omega))
    have hd := key_determines_date hy hb.1 hb.2 hgi hp2
    have hidx := add_months_month_index td (i : Int)
    have h1 := congrArg PyDate.year hd.2
    have h2 := congrArg PyDate.month hd.2
    simp only at h1 h2
    omega
  rcases (isRecOriginCandidate_iff.mp hcand).1 with hindef | hfixed
  · rw [originAdditions_indef_eq hcand hp1 hp2 hlt hexf hindef, if_neg]
    have := hguard 1 (le_refl 1)
    simpa using this
  · by_cases h0 : 0 < a.recorrencia_months
    · rw [originAdditions_fixed_eq hcand hp1 hp2 hlt hexf hfixed h0]
      apply List.flatMap_eq_nil_iff.mpr
      intro i hi
      have hi1 : 1 ≤ i := by
        have hb : 1 ≤ i ∧ i < 1 + (a.recorrencia_months - 1) := by simpa using hi
        exact hb.1
      rw [if_neg (hguard i hi1)]
    · exact originAdditions_fixed_zero hfixed (by omega)

theorem flatMap_singleton_of_unique {α β : Type} [DecidableEq α] {l : List α}
    {f : α → List β} {i : α} (hl : i ∈ l) (hnd : l.Nodup)
    (hothers : ∀ j ∈ l, j ≠ i → f j = []) : l.flatMap f = f i := by
  induction l with
  | nil => exact absurd hl (by simp)
  | cons a rest ih =>
    rw [List.flatMap_cons]
    rcases List.mem_cons.mp hl with rfl | hi
    · have hrest : rest.flatMap f = [] := by
        apply List.flatMap_eq_nil_iff.mpr
        intro j hj
        exact hothers j (List.mem_cons_of_mem _ hj)
          (fun hji => (List.nodup_cons.mp hnd).1 (hji ▸ hj))
      rw [hrest, List.append_nil]
    · have ha : f a = [] := hothers a (List.mem_cons_self a rest)
        (fun hai => (List.nodup_cons.mp hnd).1 (hai ▸ hi))
      rw [ha, List.nil_append]
      exact ih hi (List.nodup_cons.mp hnd).2
        (fun j hj => hothers j (List.mem_cons_of_mem _ hj))

/-- Under the outer duplicate check, the fixed branch's `fixed_exists` check is
redundant when some offset actually hits the target month: its legacy fallback
would force the target month to equal the origin's own month, which the offset
arithmetic excludes. -/
theorem fixedExists_false_of_guard {s : List Conta} {k : String} {o : Conta}
    {od td : PyDate} {i : Nat}
    (hp1 : parse_month_input o.month = some od)
    (hp2 : parse_month_input k = some td)
    (hex : existsCheck s k o = false)
    (hi1 : 1 ≤ i)
    (hguard : month_key_from_date (add_months od (i : Int)) = k) :
    fixedExists s k o = false := by
  by_cases hfe : fixedExists s k o = true
  case neg => exact bool_eq_false_of_ne_true hfe
  exfalso
  rw [fixedExists, List.any_eq_true] at hfe
  rcases hfe with ⟨c, hcs, hcp⟩
  simp only [Bool.and_eq_true, Bool.or_eq_true, decide_eq_true_eq] at hcp
  rcases hcp.2 with hro | hfb
  · have hcon := existsCheck_of_mem hcs hcp.1 hro
    rw [hex] at hcon
    exact Bool.false_ne_true hcon
  · have hkm : o.month = k := by rw [← hfb.2]; exact hcp.1
    have htd : td = od := by
      have hp2c := hp2
      rw [← hkm, hp1] at hp2c
      exact (Option.some.inj hp2c).symm
    have hbounds := parse_month_input_bounds hp1
    have hb := add_months_month_bounds od (i : Int)
    have hy : 1 ≤ (add_months od (i : Int)).year :=
      le_trans hbounds.1
        (add_months_year_ge hbounds.2.2.1 hbounds.2.2.2.1 (by omega))
    have hd := key_determines_date hy hb.1 hb.2 hguard hp2
    have hidx := add_months_month_index od (i : Int)
    have h1 := congrArg PyDate.year hd.2
    have h2 := congrArg PyDate.month hd.2
    simp only at h1 h2
    rw [htd] at h1 h2
    omega

theorem originAdditions_indef_singleton {s : List Conta} {k : String} {o : Conta}
    {od td : PyDate}
    (hcand : isRecOriginCandidate o = true)
    (hp1 : parse_month_input o.month = some od)
    (hp2 : parse_month_input k = some td)
    (hlt : dateLt td od = false)
    (hex : existsCheck s k o = false)
    (hindef : o.rec_type = some "indef")
    (hguard : month_key_from_date (add_months od 1) = k) :
    originAdditions s k o = [mkIndefInstance o k] := by
  rw [originAdditions_indef_eq hcand hp1 hp2 hlt hex hindef, if_pos hguard]

theorem originAdditions_fixed_singleton {s : List Conta} {k : String} {o : Conta}
    {od td : PyDate} {i : Nat}
    (hcand : isRecOriginCandidate o = true)
    (hp1 : parse_month_input o.month = some od)
    (hp2 : parse_month_input k = some td)
    (hlt : dateLt td od = false)
    (hex : existsCheck s k o = false)
    (hfixed : o.rec_type = some "fixed")
    (hi1 : 1 ≤ i) (hiN : i < o.recorrencia_months)
    (hguard : month_key_from_date (add_months od (i : Int)) = k) :
    originAdditions s k o =
      [mkFixedInstance o k (carriedValue s o (add_months od (i : Int)))] := by
  have hn : 0 < o.recorrencia_months := by omega
  have hodb := parse_month_input_bounds hp1
  rw [originAdditions_fixed_eq hcand hp1 hp2 hlt hex hfixed hn]
  rw [flatMap_singleton_of_unique (i := i) (by simp; omega) (List.nodup_range' _ _)]
  · rw [if_pos hguard, if_neg]
    rw [fixedExists_false_of_guard hp1 hp2 hex hi1 hguard]
    simp
  · intro j hj hji
    have hjb : 1 ≤ j ∧ j < 1 + (o.recorrencia_months - 1) := by simpa using hj
    rw [if_neg]
    intro hgj
    exact hji (guard_offset_unique ⟨hodb.1, hodb.2.1, hodb.2.2.1, hodb.2.2.2.1⟩
      hp2 hgj hguard)

theorem mem_enumFrom_of_mem {α : Type} {c : α} {l : List α} (hc : c ∈ l) (n : Nat) :
    ∃ j, (j, c) ∈ List.enumFrom n l := by
  induction l generalizing n with
  | nil => exact absurd hc (by simp)
  | cons a rest ih =>
    rcases List.mem_cons.mp hc with rfl | hm
    · exact ⟨n, by simp [List.enumFrom]⟩
    · obtain ⟨j, hj⟩ := ih hm (n + 1)
      exact ⟨j, by simp [List.enumFrom]; right; exact hj⟩

theorem exists_assigned {ids : Nat → String} {l : List Conta} {c : Conta}
    (hc : c ∈ l) :
    ∃ a ∈ l.enum.map (fun p => { p.2 with id := ids p.1 }),
      a.month = c.month ∧ a.rec_origin = c.rec_origin := by
  obtain ⟨j, hj⟩ := mem_enumFrom_of_mem hc 0
  exact ⟨{ c with id := ids j },
    List.mem_map_of_mem _ (by rwa [List.enum]), rfl, rfl⟩

/-- One generator pass over an extended store adds nothing for an origin of
the base store, provided the extension contains a bill with the month and
origin link of every bill the base pass generates. -/
theorem originAdditions_extended_nil {s A : List Conta} {k : String} {o : Conta}
    (ho : o ∈ s)
    (hA : ∀ c ∈ ensureAdditions s k,
      ∃ a ∈ A, a.month = c.month ∧ a.rec_origin = c.rec_origin) :
    originAdditions (s ++ A) k o = [] := by
  by_cases hcand : isRecOriginCandidate o = true
  case neg => exact originAdditions_not_candidate (bool_eq_false_of_ne_true hcand)
  cases hp1 : parse_month_input o.month with
  | none => exact originAdditions_parse_origin_none hp1
  | some od =>
  cases hp2 : parse_month_input k with
  | none => exact originAdditions_parse_target_none hp2
  | some td =>
  by_cases hlt : dateLt td od = true
  case pos => exact originAdditions_target_before hp1 hp2 hlt
  have hltf : dateLt td od = false := bool_eq_false_of_ne_true hlt
  by_cases hex2 : existsCheck (s ++ A) k o = true
  case pos => exact originAdditions_exists hex2
  have hex2f : existsCheck (s ++ A) k o = false := bool_eq_false_of_ne_true hex2
  have hexf : existsCheck s k o = false := by
    have := existsCheck_append s A k o
    rw [hex2f] at this
    exact (Bool.or_eq_false_iff.mp this.symm).1
  have hexAf : existsCheck A k o = false := by
    have := existsCheck_append s A k o
    rw [hex2f] at this
    exact (Bool.or_eq_false_iff.mp this.symm).2
  -- helper: if the base pass generated an instance, `A` already contains it
  have contra : ∀ c ∈ originAdditions s k o, False := by
    intro c hc
    have hmem : c ∈ ensureAdditions s k :=
      List.mem_flatMap.mpr ⟨o, ho, hc⟩
    obtain ⟨a, haA, ham, har⟩ := hA c hmem
    have hfields := mem_originAdditions hc
    have hro : recOriginIs a o.id = true :=
      recOriginIs_some (har.trans hfields.2.2.2.1 : a.rec_origin = some o.id)
    have : existsCheck A k o = true :=
      existsCheck_of_mem haA (ham.trans hfields.2.2.1) hro
    rw [hexAf] at this
    exact Bool.false_ne_true this
  rcases (isRecOriginCandidate_iff.mp hcand).1 with hindef | hfixed
  · rw [originAdditions_indef_eq hcand hp1 hp2 hltf
      (by
        have := existsCheck_append s A k o
        rw [hexf, hexAf] at this
        simpa using hex2f) hindef]
    rw [if_neg]
    intro hguard
    exact contra (mkIndefInstance o k)
      (by rw [originAdditions_indef_singleton hcand hp1 hp2 hltf hexf hindef hguard]
          simp)
  · by_cases h0 : 0 < o.recorrencia_months
    case neg => exact originAdditions_fixed_zero hfixed (by omega)
    rw [originAdditions_fixed_eq hcand hp1 hp2 hltf hex2f hfixed h0]
    apply List.flatMap_eq_nil_iff.mpr
    intro i hi
    have hib : 1 ≤ i ∧ i < 1 + (o.recorrencia_months - 1) := by simpa using hi
    rw [if_neg]
    intro hguard
    exact contra (mkFixedInstance o k (carriedValue s o (add_months od (i : Int))))
      (by rw [originAdditions_fixed_singleton hcand hp1 hp2 hltf hexf hfixed hib.1
            (by omega) hguard]
          simp)

/-! ### Claim theorems -/

/-- Claim C1.  Idempotence of the generator: for every bill collection and
every target month key, running `ensure_recurring_for_month` twice in a row
with the same key yields the same final store as running it once — the second
call appends no bill (uuid supplies of the two calls are arbitrary). -/
theorem ensure_recurring_for_month_idempotent (ids1 ids2 : Nat → String)
    (s : List Conta) (k : String) :
    ensure_recurring_for_month ids2 (ensure_recurring_for_month ids1 s k) k =
      ensure_recurring_for_month ids1 s k := by
  apply ensure_of_additions_nil
  apply List.flatMap_eq_nil_iff.mpr
  intro o ho
  rw [ensure_eq_append] at ho
  rcases List.mem_append.mp ho with hos | hoA
  · rw [ensure_eq_append]
    exact originAdditions_extended_nil hos (fun c hc => exists_assigned hc)
  · obtain ⟨c, hc, j, rfl⟩ := mem_ensure_additions_part hoA
    obtain ⟨o0, ho0, hco⟩ := mem_ensureAdditions hc
    have hfields := mem_originAdditions hco
    exact originAdditions_self_month (hfields.2.2.1 : c.month = k)

/-! ### Skipping bills with malformed months -/

theorem any_middle {s1 s2 : List Conta} {b : Conta} {p : Conta → Bool}
    (hb : p b = false) : (s1 ++ b :: s2).any p = (s1 ++ s2).any p := by
  simp [List.any_append, List.any_cons, hb]

theorem find_middle {s1 s2 : List Conta} {b : Conta} {p : Conta → Bool}
    (hb : p b = false) : (s1 ++ b :: s2).find? p = (s1 ++ s2).find? p := by
  rw [List.find?_append, List.find?_append, List.find?_cons_of_neg _ (by simp [hb])]

/-- Whenever some positive offset from a parsed origin hits a parsable target
key, the previous-month key of that offset parses as well (its date is between
the origin and the target in month order). -/
theorem prev_key_parses {od td : PyDate} {k : String} {i : Nat}
    (hodb : 1 ≤ od.year ∧ od.year ≤ 9999 ∧ 1 ≤ od.month ∧ od.month ≤ 12)
    (hp2 : parse_month_input k = some td)
    (hi1 : 1 ≤ i)
    (hguard : month_key_from_date (add_months od (i : Int)) = k) :
    parse_month_input
        (month_key_from_date (add_months (add_months od (i : Int)) (-1))) =
      some ⟨(add_months (add_months od (i : Int)) (-1)).year,
        (add_months (add_months od (i : Int)) (-1)).month, 1⟩ := by
  have hbn := add_months_month_bounds od (i : Int)
  have hyn : 1 ≤ (add_months od (i : Int)).year :=
    le_trans hodb.1 (add_months_year_ge hodb.2.2.1 hodb.2.2.2 (by omega))
  have hd := key_determines_date hyn hbn.1 hbn.2 hguard hp2
  have hin := add_months_month_index od (i : Int)
  have hbp := add_months_month_bounds (add_months od (i : Int)) (-1)
  have hip := add_months_month_index (add_months od (i : Int)) (-1)
  exact parse_month_key (by omega) (by omega) hbp.1 hbp.2

/-- A bill whose month string does not parse is invisible to the generator:
it is skipped as an origin and matches none of the duplicate-check or
carry-forward scans, so the generated batch is the same with or without it. -/
theorem originAdditions_skip_bad {s1 s2 : List Conta} {b : Conta} {k : String}
    {o : Conta} (hb : parse_month_input b.month = none) :
    originAdditions (s1 ++ b :: s2) k o = originAdditions (s1 ++ s2) k o := by
  by_cases hcand : isRecOriginCandidate o = true
  case neg =>
    rw [originAdditions_not_candidate (bool_eq_false_of_ne_true hcand),
      originAdditions_not_candidate (bool_eq_false_of_ne_true hcand)]
  cases hp1 : parse_month_input o.month with
  | none =>
    rw [originAdditions_parse_origin_none hp1, originAdditions_parse_origin_none hp1]
  | some od =>
  cases hp2 : parse_month_input k with
  | none =>
    rw [originAdditions_parse_target_none hp2, originAdditions_parse_target_none hp2]
  | some td =>
  have hodb := parse_month_input_bounds hp1
  have hbk : ¬ (b.month = k) := by
    intro h
    rw [h, hp2] at hb
    exact Option.noConfusion hb
  have hbo : ¬ (b.month = o.month) := by
    intro h
    rw [h, hp1] at hb
    exact Option.noConfusion hb
  have hex_eq : existsCheck (s1 ++ b :: s2) k o = existsCheck (s1 ++ s2) k o := by
    rw [existsCheck, existsCheck]
    exact any_middle (by simp [hbk])
  have hfx_eq : fixedExists (s1 ++ b :: s2) k o = fixedExists (s1 ++ s2) k o := by
    rw [fixedExists, fixedExists]
    exact any_middle (by simp [hbk])
  by_cases hlt : dateLt td od = true
  case pos =>
    rw [originAdditions_target_before hp1 hp2 hlt,
      originAdditions_target_before hp1 hp2 hlt]
  have hltf : dateLt td od = false := bool_eq_false_of_ne_true hlt
  by_cases hex : existsCheck (s1 ++ s2) k o = true
  case pos =>
    rw [originAdditions_exists hex, originAdditions_exists (hex_eq.trans hex)]
  have hexf : existsCheck (s1 ++ s2) k o = false := bool_eq_false_of_ne_true hex
  have hexf' : existsCheck (s1 ++ b :: s2) k o = false := hex_eq.trans hexf
  rcases (isRecOriginCandidate_iff.mp hcand).1 with hindef | hfixed
  · rw [originAdditions_indef_eq hcand hp1 hp2 hltf hexf' hindef,
      originAdditions_indef_eq hcand hp1 hp2 hltf hexf hindef]
  · by_cases h0 : 0 < o.recorrencia_months
    case neg =>
      rw [originAdditions_fixed_zero hfixed (by omega),
        originAdditions_fixed_zero hfixed (by omega)]
    rw [originAdditions_fixed_eq hcand hp1 hp2 hltf hexf' hfixed h0,
      originAdditions_fixed_eq hcand hp1 hp2 hltf hexf hfixed h0]
    apply List.flatMap_congr
    intro i hi
    have hib : 1 ≤ i ∧ i < 1 + (o.recorrencia_months - 1) := by simpa using hi
    by_cases hguard : month_key_from_date (add_months od (i : Int)) = k
    · rw [if_pos hguard, if_pos hguard, hfx_eq]
      have hpk := prev_key_parses
        ⟨hodb.1, hodb.2.1, hodb.2.2.1, hodb.2.2.2.1⟩ hp2 hib.1 hguard
      have hbpk : ¬ (b.month =
          month_key_from_date (add_months (add_months od (i : Int)) (-1))) := by
        intro h
        rw [h, hpk] at hb
        exact Option.noConfusion hb
      have hcv : carriedValue (s1 ++ b :: s2) o (add_months od (i : Int)) =
          carriedValue (s1 ++ s2) o (add_months od (i : Int)) := by
        rw [carriedValue, carriedValue, prevInst, prevInst,
          find_middle (by simp [hbpk])]
      rw [hcv]
    · rw [if_neg hguard, if_neg hguard]

/-- Claim C5.  The generator is purely additive: every pre-existing bill is
still present, the prefix of the store up to its old length is unchanged
field-for-field, and the bill count never decreases. -/
theorem ensure_recurring_for_month_purely_additive (ids : Nat → String)
    (s : List Conta) (k : String) :
    (∀ c ∈ s, c ∈ ensure_recurring_for_month ids s k) ∧
      (ensure_recurring_for_month ids s k).take s.length = s ∧
      s.length ≤ (ensure_recurring_for_month ids s k).length := by
  rw [ensure_eq_append]
  refine ⟨fun c hc => List.mem_append_left _ hc, List.take_left _ _, ?_⟩
  rw [List.length_append]
  omega

/-- Claim C8.  Malformed month data never disturbs the generator: a target
key that does not parse as a month makes the whole call a silent no-op, and a
bill whose own month string does not parse is skipped while all other origins
are still processed (the generated batch is exactly the one produced without
that bill).  In the embedding the generator is a total function, so "never
raises" is expressed by these two equalities. -/
theorem ensure_recurring_for_month_malformed_months :
    (∀ (ids : Nat → String) (s : List Conta) (k : String),
      parse_month_input k = none → ensure_recurring_for_month ids s k = s) ∧
      (∀ (s1 s2 : List Conta) (b : Conta) (k : String),
        parse_month_input b.month = none →
        ensureAdditions (s1 ++ b :: s2) k = ensureAdditions (s1 ++ s2) k) := by
  constructor
  · intro ids s k hk
    apply ensure_of_additions_nil
    apply List.flatMap_eq_nil_iff.mpr
    intro o _
    exact originAdditions_parse_target_none hk
  · intro s1 s2 b k hb
    rw [ensureAdditions, ensureAdditions, List.flatMap_append, List.flatMap_cons,
      List.flatMap_append, originAdditions_parse_origin_none hb, List.nil_append,
      List.flatMap_congr (fun o _ => originAdditions_skip_bad hb),
      List.flatMap_congr (l := s2) (fun o _ => originAdditions_skip_bad hb)]

/-! ### Rounding lemmas -/

theorem floor_intCast_add_half (z : Int) : ⌊(z : Rat) + 1/2⌋ = z := by
  rw [add_comm, Int.floor_add_int]
  norm_num

theorem roundHalfUp2_int_div (z : Int) :
    roundHalfUp2 ((z : Rat) / 100) = (z : Rat) / 100 := by
  rw [roundHalfUp2]
  have h100 : ((z : Rat) / 100) * 100 = (z : Rat) := by
    field_simp
  split
  · next hneg =>
    have : (-((z : Rat) / 100)) * 100 = ((-z : Int) : Rat) := by push_cast; linarith
    rw [this, floor_intCast_add_half]
    push_cast
    ring
  · rw [h100, floor_intCast_add_half]

theorem roundHalfUp2_shape (q : Rat) : ∃ z : Int, roundHalfUp2 q = (z : Rat) / 100 := by
  rw [roundHalfUp2]
  split
  · exact ⟨-⌊(-q) * 100 + 1/2⌋, by push_cast; ring⟩
  · exact ⟨⌊q * 100 + 1/2⌋, rfl⟩

theorem dropLast_replicate_succ {α : Type} (n : Nat) (x : α) :
    (List.replicate (n + 1) x).dropLast = List.replicate n x := by
  simp

theorem sum_replicate_rat (n : Nat) (x : Rat) :
    (List.replicate n x).sum = (n : Rat) * x := by
  rw [List.sum_replicate]
  simp [nsmul_eq_mul]

/-- Claim C7.  Installment split exactness: for a non-negative two-decimal
total `c / 100` and a count `n > 1`, the split returns `n` amounts, all equal
to the half-up rounding of `total / n` except possibly the last, and the sum
of the parts is exactly the (quantized) total. -/
theorem split_amount_into_installments_exact (T : Rat) (n : Nat) (c : Nat)
    (hT : T = (c : Rat) / 100) (hn : 1 < n) :
    (split_amount_into_installments T n).length = n ∧
      (split_amount_into_installments T n).sum = T ∧
      (split_amount_into_installments T n).dropLast =
        List.replicate (n - 1) (roundHalfUp2 (T / (n : Rat))) := by
  have hq : roundHalfUp2 T = T := by
    rw [hT]
    have h := roundHalfUp2_int_div (c : Int)
    push_cast at h
    exact h
  rw [split_amount_into_installments, if_neg (by omega)]
  simp only [hq]
  set base := roundHalfUp2 (T / (n : Rat)) with hbase
  obtain ⟨z, hz⟩ := roundHalfUp2_shape (T / (n : Rat))
  rw [← hbase] at hz
  have hsum : (List.replicate n base).sum = (n : Rat) * base := sum_replicate_rat n base
  by_cases hdiff : T - (List.replicate n base).sum = 0
  · rw [if_neg (by simpa using hdiff)]
    refine ⟨by simp, by rw [hsum] at hdiff ⊢; linarith, ?_⟩
    obtain ⟨n', rfl⟩ : ∃ n', n = n' + 1 := ⟨n - 1, by omega⟩
    rw [dropLast_replicate_succ]
    simp
  · rw [if_pos (by simpa using hdiff)]
    have hround : roundHalfUp2 (base + (T - (List.replicate n base).sum)) =
        base + (T - (List.replicate n base).sum) := by
      rw [hsum, hz, hT]
      have : (z : Rat) / 100 + ((c : Rat) / 100 - (n : Rat) * ((z : Rat) / 100)) =
          ((z + c - n * z : Int) : Rat) / 100 := by
        push_cast
        ring
      rw [this, roundHalfUp2_int_div]
    rw [hround]
    obtain ⟨n', rfl⟩ : ∃ n', n = n' + 1 := ⟨n - 1, by omega⟩
    rw [dropLast_replicate_succ]
    refine ⟨?_, ?_, ?_⟩
    · simp
    · rw [List.sum_append, sum_replicate_rat]
      rw [hsum]
      push_cast
      simp
      ring
    · rw [List.dropLast_concat]
      simp
  
theorem daysInMonth_ge (y m : Int) : 28 ≤ daysInMonth y m := by
  rw [daysInMonth]
  split
  · split <;> omega
  · split <;> omega

/-- Claim C9.  `add_months` shifts a date by the requested number of months
(possibly negative) and clamps the day to the last valid day of the resulting
month; in particular Jan 31 2024 + 1 month is Feb 29 2024 (leap year) and
Jan 31 2023 + 1 month is Feb 28 2023. -/
theorem add_months_shifts_and_clamps :
    (∀ (d : PyDate) (m : Int), validDate d →
      (12 * (add_months d m).year + (add_months d m).month =
          12 * d.year + d.month + m) ∧
        1 ≤ (add_months d m).month ∧ (add_months d m).month ≤ 12 ∧
        (add_months d m).day =
          min d.day (daysInMonth (add_months d m).year (add_months d m).month) ∧
        validDate (add_months d m)) ∧
      add_months ⟨2024, 1, 31⟩ 1 = ⟨2024, 2, 29⟩ ∧
      add_months ⟨2023, 1, 31⟩ 1 = ⟨2023, 2, 28⟩ := by
  refine ⟨fun d m hd => ?_, by decide, by decide⟩
  have hidx := add_months_month_index d m
  have hb := add_months_month_bounds d m
  have hday := add_months_day d m
  have hpos := daysInMonth_ge (add_months d m).year (add_months d m).month
  rcases hd with ⟨hm1, hm2, hd1, hd2⟩
  refine ⟨by omega, hb.1, hb.2, hday, hb.1, hb.2, ?_, ?_⟩ <;> rw [hday]
  · simp only [le_min_iff]
    omega
  · exact min_le_right _ _

/-! ### Money-parsing lemmas -/

theorem filter_eq_self_of_digits {l : List Char} {x : Char}
    (hd : ∀ c ∈ l, isDigitCh c = true) (hx : ∀ c, isDigitCh c = true → c ≠ x) :
    l.filter (fun c => c ≠ x) = l := by
  rw [List.filter_eq_self]
  intro c hc
  simpa using hx c (hd c hc)

theorem map_comma_eq_self_of_digits {l : List Char}
    (hd : ∀ c ∈ l, isDigitCh c = true) :
    l.map (fun c => if c = ',' then '.' else c) = l := by
  induction l with
  | nil => rfl
  | cons c rest ih =>
    rw [List.map_cons, if_neg ((isDigitCh_ne (hd c (by simp))).2.2.2.1),
      ih (fun c hc => hd c (List.mem_cons_of_mem _ hc))]

theorem removeSub_of_head_not_mem {p : Char} {pt l : List Char} (hp : p ∉ l) :
    removeSub (p :: pt) l = l := by
  induction l with
  | nil => rw [removeSub]
  | cons c rest ih =>
    rw [removeSub]
    have hcp : ¬ (p :: pt).isPrefixOf (c :: rest) := by
      intro hpre
      rcases List.isPrefixOf_iff_prefix.mp hpre with ⟨t, ht⟩
      have : p = c := by
        have := congrArg (fun l => l.head?) ht
        simpa using this
      exact hp (this ▸ List.mem_cons_self c rest)
    rw [dif_neg (by simp [hcp])]
    rw [ih (fun hm => hp (List.mem_cons_of_mem _ hm))]

theorem pyStrip_mixed {l : List Char}
    (h : ∀ c ∈ l, isDigitCh c = true ∨ c = '.' ∨ c = ',') : pyStrip l = l := by
  apply pyStrip_eq_self
  intro c hc
  rcases h c hc with hd | rfl | rfl
  · exact (isDigitCh_ne hd).2.2.2.2.2.2.2
  · decide
  · decide

theorem parseDec_point {ip fp : List Char} (hip : ip ≠ [])
    (hd1 : ∀ c ∈ ip, isDigitCh c = true) (hd2 : ∀ c ∈ fp, isDigitCh c = true) :
    parseDec (ip ++ '.' :: fp) =
      some ((digitsToNat ip : Rat) +
        (digitsToNat fp : Rat) / ((10 ^ fp.length : Nat) : Rat)) := by
  have hmix : ∀ c ∈ ip ++ '.' :: fp, isDigitCh c = true ∨ c = '.' ∨ c = ',' := by
    intro c hc
    rcases List.mem_append.mp hc with hc | hc
    · exact Or.inl (hd1 c hc)
    · rcases List.mem_cons.mp hc with rfl | hc
      · exact Or.inr (Or.inl rfl)
      · exact Or.inl (hd2 c hc)
  have hstrip : pyStrip (ip ++ '.' :: fp) = ip ++ '.' :: fp := pyStrip_mixed hmix
  have hsplit : splitOnChar '.' (ip ++ '.' :: fp) = [ip, fp] := by
    rw [splitOnChar_append _ (fun hm => ((isDigitCh_ne (hd1 _ hm)).2.2.1) rfl),
      splitOnChar_of_not_mem (fun hm => ((isDigitCh_ne (hd2 _ hm)).2.2.1) rfl)]
  cases ip with
  | nil => exact absurd rfl hip
  | cons c0 rest =>
    have hc0 := isDigitCh_ne (hd1 c0 (by simp))
    simp only [parseDec, hstrip]
    show (if c0 = '+' then parseDecCore (rest ++ '.' :: fp)
      else if c0 = '-' then (parseDecCore (rest ++ '.' :: fp)).map (fun q => -q)
      else parseDecCore (c0 :: (rest ++ '.' :: fp))) = _
    rw [if_neg hc0.2.1, if_neg hc0.1, ← List.cons_append]
    simp only [parseDecCore, hsplit]
    show (if ((c0 :: rest) ≠ [] ∨ fp ≠ []) ∧ (c0 :: rest).all isDigitCh = true ∧
        fp.all isDigitCh = true then
      some (((digitsToNat (c0 :: rest) : Nat) : Rat) +
        ((digitsToNat fp : Nat) : Rat) / ((10 ^ fp.length : Nat) : Rat))
      else none) = _
    rw [if_pos ⟨Or.inl hip, List.all_eq_true.mpr hd1, List.all_eq_true.mpr hd2⟩]

theorem parseDec_plain {ds : List Char} (hne : ds ≠ [])
    (hd : ∀ c ∈ ds, isDigitCh c = true) :
    parseDec ds = some ((digitsToNat ds : Nat) : Rat) := by
  have hstrip : pyStrip ds = ds :=
    pyStrip_eq_self (fun c hc => (isDigitCh_ne (hd c hc)).2.2.2.2.2.2.2)
  have hsplit : splitOnChar '.' ds = [ds] :=
    splitOnChar_of_not_mem (fun hm => ((isDigitCh_ne (hd _ hm)).2.2.1) rfl)
  cases ds with
  | nil => exact absurd rfl hne
  | cons c0 rest =>
    have hc0 := isDigitCh_ne (hd c0 (by simp))
    simp only [parseDec, hstrip]
    show (if c0 = '+' then parseDecCore rest
      else if c0 = '-' then (parseDecCore rest).map (fun q => -q)
      else parseDecCore (c0 :: rest)) = _
    rw [if_neg hc0.2.1, if_neg hc0.1]
    simp only [parseDecCore, hsplit]
    show (if (c0 :: rest) ≠ [] ∧ (c0 :: rest).all isDigitCh = true then
      some (((digitsToNat (c0 :: rest) : Nat) : Rat)) else none) = _
    rw [if_pos ⟨by simp, List.all_eq_true.mpr hd⟩]

theorem money_to_decimal_clean {l : List Char}
    (h : ∀ c ∈ l, isDigitCh c = true ∨ c = '.' ∨ c = ',') :
    money_to_decimal (some (String.mk l)) =
      (parseDec (if ('.' ∈ l) ∧ (',' ∈ l) then
          (l.filter (fun c => c ≠ '.')).map (fun c => if c = ',' then '.' else c)
        else if (',' ∈ l) ∧ ¬ ('.' ∈ l) then
          l.map (fun c => if c = ',' then '.' else c)
        else l)).map roundHalfUp2 := by
  rw [money_to_decimal]
  have htl : (String.mk l).toList = l := rfl
  have h1 : pyStrip l = l := pyStrip_mixed h
  have h2 : l.filter (fun c => c ≠ ' ') = l := by
    rw [List.filter_eq_self]
    intro c hc
    rcases h c hc with hd | rfl | rfl
    · simpa using (isDigitCh_ne hd).2.2.2.2.1
    · simp
    · simp
  have h3 : removeSub ['R', '$'] l = l := by
    apply removeSub_of_head_not_mem
    intro hm
    rcases h _ hm with hd | hR | hR
    · exact absurd hd (by decide)
    · exact absurd hR (by decide)
    · exact absurd hR (by decide)
  simp only [htl, h1, h2, h3]

theorem money_to_decimal_comma_only {ip fp : List Char} (hip : ip ≠ [])
    (hd1 : ∀ c ∈ ip, isDigitCh c = true) (hd2 : ∀ c ∈ fp, isDigitCh c = true) :
    money_to_decimal (some (String.mk (ip ++ ',' :: fp))) =
      some (roundHalfUp2 ((digitsToNat ip : Rat) +
        (digitsToNat fp : Rat) / ((10 ^ fp.length : Nat) : Rat))) := by
  have hmix : ∀ c ∈ ip ++ ',' :: fp, isDigitCh c = true ∨ c = '.' ∨ c = ',' := by
    intro c hc
    rcases List.mem_append.mp hc with hc | hc
    · exact Or.inl (hd1 c hc)
    · rcases List.mem_cons.mp hc with rfl | hc
      · exact Or.inr (Or.inr rfl)
      · exact Or.inl (hd2 c hc)
  have hnodot : ¬ ('.' ∈ ip ++ ',' :: fp) := by
    intro hm
    rcases List.mem_append.mp hm with hm | hm
    · exact (isDigitCh_ne (hd1 _ hm)).2.2.1 rfl
    · rcases List.mem_cons.mp hm with hm | hm
      · exact absurd hm (by decide)
      · exact (isDigitCh_ne (hd2 _ hm)).2.2.1 rfl
  have hcomma : ',' ∈ ip ++ ',' :: fp := List.mem_append_right _ (by simp)
  rw [money_to_decimal_clean hmix, if_neg (fun hb => hnodot hb.1),
    if_pos ⟨hcomma, hnodot⟩]
  rw [List.map_append, List.map_cons, if_pos rfl,
    map_comma_eq_self_of_digits hd1, map_comma_eq_self_of_digits hd2,
    parseDec_point hip hd1 hd2]
  rfl

theorem money_to_decimal_thousands_dot {a b f : List Char} (ha : a ≠ [])
    (hda : ∀ c ∈ a, isDigitCh c = true) (hdb : ∀ c ∈ b, isDigitCh c = true)
    (hdf : ∀ c ∈ f, isDigitCh c = true) :
    money_to_decimal (some (String.mk (a ++ '.' :: (b ++ ',' :: f)))) =
      some (roundHalfUp2 ((digitsToNat (a ++ b) : Rat) +
        (digitsToNat f : Rat) / ((10 ^ f.length : Nat) : Rat))) := by
  have hmix : ∀ c ∈ a ++ '.' :: (b ++ ',' :: f),
      isDigitCh c = true ∨ c = '.' ∨ c = ',' := by
    intro c hc
    rcases List.mem_append.mp hc with hc | hc
    · exact Or.inl (hda c hc)
    · rcases List.mem_cons.mp hc with rfl | hc
      · exact Or.inr (Or.inl rfl)
      · rcases List.mem_append.mp hc with hc | hc
        · exact Or.inl (hdb c hc)
        · rcases List.mem_cons.mp hc with rfl | hc
          · exact Or.inr (Or.inr rfl)
          · exact Or.inl (hdf c hc)
  have hdot : '.' ∈ a ++ '.' :: (b ++ ',' :: f) := List.mem_append_right _ (by simp)
  have hcomma : ',' ∈ a ++ '.' :: (b ++ ',' :: f) := by
    apply List.mem_append_right
    apply List.mem_cons_of_mem
    exact List.mem_append_right _ (by simp)
  rw [money_to_decimal_clean hmix, if_pos ⟨hdot, hcomma⟩]
  have hfa : (a ++ '.' :: (b ++ ',' :: f)).filter (fun c => c ≠ '.') =
      (a ++ b) ++ ',' :: f := by
    rw [List.filter_append, List.filter_cons,
      if_neg (by decide : ¬ (decide ('.' ≠ '.') = true)),
      List.filter_append, List.filter_cons,
      if_pos (by decide : decide (',' ≠ '.') = true),
      filter_eq_self_of_digits hda (fun c hc => (isDigitCh_ne hc).2.2.1),
      filter_eq_self_of_digits hdb (fun c hc => (isDigitCh_ne hc).2.2.1),
      filter_eq_self_of_digits hdf (fun c hc => (isDigitCh_ne hc).2.2.1)]
    simp [List.append_assoc]
  rw [hfa, List.map_append, List.map_cons, if_pos rfl,
    map_comma_eq_self_of_digits (fun c hc => by
      rcases List.mem_append.mp hc with hc | hc
      exacts [hda c hc, hdb c hc]),
    map_comma_eq_self_of_digits hdf,
    parseDec_point (by simp [ha]) (fun c hc => by
      rcases List.mem_append.mp hc with hc | hc
      exacts [hda c hc, hdb c hc]) hdf]
  rfl

theorem money_to_decimal_comma_then_dot {a b f : List Char} (ha : a ≠ [])
    (hda : ∀ c ∈ a, isDigitCh c = true) (hdb : ∀ c ∈ b, isDigitCh c = true)
    (hdf : ∀ c ∈ f, isDigitCh c = true) :
    money_to_decimal (some (String.mk (a ++ ',' :: (b ++ '.' :: f)))) =
      some (roundHalfUp2 ((digitsToNat a : Rat) +
        (digitsToNat (b ++ f) : Rat) / ((10 ^ (b.length + f.length) : Nat) : Rat))) := by
  have hmix : ∀ c ∈ a ++ ',' :: (b ++ '.' :: f),
      isDigitCh c = true ∨ c = '.' ∨ c = ',' := by
    intro c hc
    rcases List.mem_append.mp hc with hc | hc
    · exact Or.inl (hda c hc)
    · rcases List.mem_cons.mp hc with rfl | hc
      · exact Or.inr (Or.inr rfl)
      · rcases List.mem_append.mp hc with hc | hc
        · exact Or.inl (hdb c hc)
        · rcases List.mem_cons.mp hc with rfl | hc
          · exact Or.inr (Or.inl rfl)
          · exact Or.inl (hdf c hc)
  have hdot : '.' ∈ a ++ ',' :: (b ++ '.' :: f) := by
    apply List.mem_append_right
    apply List.mem_cons_of_mem
    exact List.mem_append_right _ (by simp)
  have hcomma : ',' ∈ a ++ ',' :: (b ++ '.' :: f) := List.mem_append_right _ (by simp)
  rw [money_to_decimal_clean hmix, if_pos ⟨hdot, hcomma⟩]
  have hfa : (a ++ ',' :: (b ++ '.' :: f)).filter (fun c => c ≠ '.') =
      a ++ ',' :: (b ++ f) := by
    rw [List.filter_append, List.filter_cons,
      if_pos (by decide : decide (',' ≠ '.') = true),
      List.filter_append, List.filter_cons,
      if_neg (by decide : ¬ (decide ('.' ≠ '.') = true)),
      filter_eq_self_of_digits hda (fun c hc => (isDigitCh_ne hc).2.2.1),
      filter_eq_self_of_digits hdb (fun c hc => (isDigitCh_ne hc).2.2.1),
      filter_eq_self_of_digits hdf (fun c hc => (isDigitCh_ne hc).2.2.1)]
  rw [hfa, List.map_append, List.map_cons, if_pos rfl,
    map_comma_eq_self_of_digits hda,
    map_comma_eq_self_of_digits (fun c hc => by
      rcases List.mem_append.mp hc with hc | hc
      exacts [hdb c hc, hdf c hc]),
    parseDec_point ha hda (fun c hc => by
      rcases List.mem_append.mp hc with hc | hc
      exacts [hdb c hc, hdf c hc]),
    List.length_append]
  rfl

theorem money_to_decimal_dot_only {ip fp : List Char} (hip : ip ≠ [])
    (hd1 : ∀ c ∈ ip, isDigitCh c = true) (hd2 : ∀ c ∈ fp, isDigitCh c = true) :
    money_to_decimal (some (String.mk (ip ++ '.' :: fp))) =
      some (roundHalfUp2 ((digitsToNat ip : Rat) +
        (digitsToNat fp : Rat) / ((10 ^ fp.length : Nat) : Rat))) := by
  have hmix : ∀ c ∈ ip ++ '.' :: fp, isDigitCh c = true ∨ c = '.' ∨ c = ',' := by
    intro c hc
    rcases List.mem_append.mp hc with hc | hc
    · exact Or.inl (hd1 c hc)
    · rcases List.mem_cons.mp hc with rfl | hc
      · exact Or.inr (Or.inl rfl)
      · exact Or.inl (hd2 c hc)
  have hnocomma : ¬ (',' ∈ ip ++ '.' :: fp) := by
    intro hm
    rcases List.mem_append.mp hm with hm | hm
    · exact (isDigitCh_ne (hd1 _ hm)).2.2.2.1 rfl
    · rcases List.mem_cons.mp hm with hm | hm
      · exact absurd hm (by decide)
      · exact (isDigitCh_ne (hd2 _ hm)).2.2.2.1 rfl
  rw [money_to_decimal_clean hmix, if_neg (fun hb => hnocomma hb.2),
    if_neg (fun hb => hnocomma hb.1), parseDec_point hip hd1 hd2]
  rfl

theorem two_decimal_round (z : Int) (q : Rat) (h : q = (z : Rat) / 100) :
    roundHalfUp2 q = q := by
  rw [h]
  exact roundHalfUp2_int_div z

/-- Claim C6 counterexample.  The claim says that when both `.` and `,`
appear, the *last-occurring* separator is the decimal point, so
`"1,234.56"` would parse to `1234.56`.  The code instead always treats the
comma as the decimal point: `"1,234.56"` parses to `1.23`. -/
theorem money_to_decimal_last_separator_counterexample :
    money_to_decimal (some "1,234.56") = some ((123 : Rat) / 100) ∧
      money_to_decimal (some "1,234.56") ≠ some ((123456 : Rat) / 100) := by
  have hs : ("1,234.56" : String) =
      String.mk (['1'] ++ ',' :: (['2', '3', '4'] ++ '.' :: ['5', '6'])) := rfl
  have h : money_to_decimal (some "1,234.56") = some ((123 : Rat) / 100) := by
    rw [hs, money_to_decimal_comma_then_dot (by simp) (by decide) (by decide)
      (by decide)]
    have h1 : digitsToNat ['1'] = 1 := rfl
    have h2 : digitsToNat (['2', '3', '4'] ++ ['5', '6']) = 23456 := rfl
    rw [h1, h2]
    have hval : ((1 : Nat) : Rat) +
        ((23456 : Nat) : Rat) / ((10 ^ ((['2', '3', '4'] : List Char).length +
          (['5', '6'] : List Char).length) : Nat) : Rat) = 123456 / 100000 := by
      norm_num
    rw [hval, roundHalfUp2, if_neg (by norm_num)]
    norm_num [Int.floor_eq_iff]
  exact ⟨h, by rw [h]; norm_num⟩

/-- Claim C6 (amended).  `money_to_decimal` strips spaces and an `R$` prefix
and rounds half-up to two decimals; when both `.` and `,` appear — in either
order — the comma is the decimal point and every dot is dropped as a
thousands separator; when only `,` appears it is the decimal point; otherwise
the string parses as-is ('.' as decimal point).  In particular
`"1.234,56"`, `"1234,56"` and `"1234.56"` all parse to `1234.56`, and empty
or missing input fails (`InvalidOperation`, modelled as `none`). -/
theorem money_to_decimal_spec :
    (∀ ip fp : List Char, ip ≠ [] → (∀ c ∈ ip, isDigitCh c = true) →
      (∀ c ∈ fp, isDigitCh c = true) →
      money_to_decimal (some (String.mk (ip ++ ',' :: fp))) =
        some (roundHalfUp2 ((digitsToNat ip : Rat) +
          (digitsToNat fp : Rat) / ((10 ^ fp.length : Nat) : Rat)))) ∧
    (∀ a b f : List Char, a ≠ [] → (∀ c ∈ a, isDigitCh c = true) →
      (∀ c ∈ b, isDigitCh c = true) → (∀ c ∈ f, isDigitCh c = true) →
      money_to_decimal (some (String.mk (a ++ '.' :: (b ++ ',' :: f)))) =
        some (roundHalfUp2 ((digitsToNat (a ++ b) : Rat) +
          (digitsToNat f : Rat) / ((10 ^ f.length : Nat) : Rat)))) ∧
    (∀ a b f : List Char, a ≠ [] → (∀ c ∈ a, isDigitCh c = true) →
      (∀ c ∈ b, isDigitCh c = true) → (∀ c ∈ f, isDigitCh c = true) →
      money_to_decimal (some (String.mk (a ++ ',' :: (b ++ '.' :: f)))) =
        some (roundHalfUp2 ((digitsToNat a : Rat) +
          (digitsToNat (b ++ f) : Rat) /
            ((10 ^ (b.length + f.length) : Nat) : Rat)))) ∧
    (∀ ip fp : List Char, ip ≠ [] → (∀ c ∈ ip, isDigitCh c = true) →
      (∀ c ∈ fp, isDigitCh c = true) →
      money_to_decimal (some (String.mk (ip ++ '.' :: fp))) =
        some (roundHalfUp2 ((digitsToNat ip : Rat) +
          (digitsToNat fp : Rat) / ((10 ^ fp.length : Nat) : Rat)))) ∧
    money_to_decimal (some "1.234,56") = some ((123456 : Rat) / 100) ∧
    money_to_decimal (some "1234,56") = some ((123456 : Rat) / 100) ∧
    money_to_decimal (some "1234.56") = some ((123456 : Rat) / 100) ∧
    money_to_decimal none = none ∧
    money_to_decimal (some "") = none := by
  have hval : ((1234 : Nat) : Rat) + ((56 : Nat) : Rat) /
      ((10 ^ (['5', '6'] : List Char).length : Nat) : Rat) =
        ((123456 : Int) : Rat) / 100 := by
    norm_num
  refine ⟨fun ip fp h1 h2 h3 => money_to_decimal_comma_only h1 h2 h3,
    fun a b f h1 h2 h3 h4 => money_to_decimal_thousands_dot h1 h2 h3 h4,
    fun a b f h1 h2 h3 h4 => money_to_decimal_comma_then_dot h1 h2 h3 h4,
    fun ip fp h1 h2 h3 => money_to_decimal_dot_only h1 h2 h3, ?_, ?_, ?_, rfl, by
      simp [money_to_decimal, pyStrip, parseDec, parseDecCore, splitOnChar, removeSub]⟩
  · have hs : ("1.234,56" : String) =
        String.mk (['1'] ++ '.' :: (['2', '3', '4'] ++ ',' :: ['5', '6'])) := rfl
    rw [hs, money_to_decimal_thousands_dot (by simp) (by decide) (by decide)
      (by decide)]
    have h1 : digitsToNat (['1'] ++ ['2', '3', '4']) = 1234 := rfl
    have h2 : digitsToNat ['5', '6'] = 56 := rfl
    rw [h1, h2, hval, roundHalfUp2_int_div]
    norm_num
  · have hs : ("1234,56" : String) =
        String.mk (['1', '2', '3', '4'] ++ ',' :: ['5', '6']) := rfl
    rw [hs, money_to_decimal_comma_only (by simp) (by decide) (by decide)]
    have h1 : digitsToNat ['1', '2', '3', '4'] = 1234 := rfl
    have h2 : digitsToNat ['5', '6'] = 56 := rfl
    rw [h1, h2, hval, roundHalfUp2_int_div]
    norm_num
  · have hs : ("1234.56" : String) =
        String.mk (['1', '2', '3', '4'] ++ '.' :: ['5', '6']) := rfl
    rw [hs, money_to_decimal_dot_only (by simp) (by decide) (by decide)]
    have h1 : digitsToNat ['1', '2', '3', '4'] = 1234 := rfl
    have h2 : digitsToNat ['5', '6'] = 56 := rfl
    rw [h1, h2, hval, roundHalfUp2_int_div]
    norm_num

/-- Witness for Claim C6's amended theorem: the comma-decimal rule applied to
the concrete string `"7,05"`. -/
theorem money_to_decimal_spec_witness :
    money_to_decimal (some (String.mk (['7'] ++ ',' :: ['0', '5']))) =
      some (roundHalfUp2 ((digitsToNat ['7'] : Rat) +
        (digitsToNat ['0', '5'] : Rat) /
          ((10 ^ (['0', '5'] : List Char).length : Nat) : Rat))) :=
  money_to_decimal_spec.1 ['7'] ['0', '5'] (by simp) (by decide) (by decide)

/-! ### Filtering the generated batch by origin -/

theorem roundHalfEven2_int_div (z : Int) :
    roundHalfEven2 ((z : Rat) / 100) = (z : Rat) / 100 := by
  rw [roundHalfEven2]
  have h100 : ((z : Rat) / 100) * 100 = (z : Rat) := by field_simp
  simp only [h100, Int.floor_intCast, sub_self]
  norm_num

theorem roundHalfEven2_zero : roundHalfEven2 0 = 0 := by
  have h := roundHalfEven2_int_div 0
  simpa using h

theorem countP_enumFrom {α : Type} (q : α → Bool) (l : List α) (n : Nat) :
    (List.enumFrom n l).countP (fun p => q p.2) = l.countP q := by
  induction l generalizing n with
  | nil => rfl
  | cons a rest ih =>
    rw [List.enumFrom, List.countP_cons, List.countP_cons, ih]

theorem countP_assign (ids : Nat → String) (l : List Conta) (p : Conta → Bool)
    (hp : ∀ (c : Conta) (j : Nat), p { c with id := ids j } = p c) :
    ((l.enum.map fun pr => { pr.2 with id := ids pr.1 }).countP p) = l.countP p := by
  rw [List.countP_map]
  have h : (fun pr : Nat × Conta => p { pr.2 with id := ids pr.1 }) =
      (fun pr : Nat × Conta => (fun c => p c) pr.2) := by
    funext pr
    exact hp pr.2 pr.1
  calc (List.enum l).countP (p ∘ fun pr => { pr.2 with id := ids pr.1 })
      = (List.enumFrom 0 l).countP (fun pr => p { pr.2 with id := ids pr.1 }) := rfl
    _ = l.countP p := by rw [h]; exact countP_enumFrom p l 0

theorem filter_flatMap_origin {s full : List Conta} {k : String} {o : Conta}
    (ho : o ∈ s) (hnd : (s.map Conta.id).Nodup) :
    (s.flatMap (originAdditions full k)).filter
        (fun c => c.rec_origin = some o.id) = originAdditions full k o := by
  induction s with
  | nil => exact absurd ho (by simp)
  | cons x rest ih =>
    rw [List.flatMap_cons, List.filter_append]
    have hnd2 := hnd
    rw [List.map_cons, List.nodup_cons] at hnd2
    rcases List.mem_cons.mp ho with rfl | hor
    · have h1 : (originAdditions full k o).filter
          (fun c => c.rec_origin = some o.id) = originAdditions full k o := by
        rw [List.filter_eq_self]
        intro c hc
        simp [(mem_originAdditions hc).2.2.2.1]
      have h2 : (rest.flatMap (originAdditions full k)).filter
          (fun c => c.rec_origin = some o.id) = [] := by
        rw [List.filter_eq_nil_iff]
        intro c hc
        obtain ⟨o2, ho2, hco2⟩ := List.mem_flatMap.mp hc
        have hre := (mem_originAdditions hco2).2.2.2.1
        simp only [hre, decide_eq_true_eq, Option.some.injEq]
        intro heq
        exact hnd2.1 (heq ▸ List.mem_map_of_mem Conta.id ho2)
      rw [h1, h2, List.append_nil]
    · have h1 : (originAdditions full k x).filter
          (fun c => c.rec_origin = some o.id) = [] := by
        rw [List.filter_eq_nil_iff]
        intro c hc
        have hre := (mem_originAdditions hc).2.2.2.1
        simp only [hre, decide_eq_true_eq, Option.some.injEq]
        intro heq
        exact hnd2.1 (heq.symm ▸ List.mem_map_of_mem Conta.id hor)
      rw [h1, List.nil_append]
      exact ih hor hnd2.2

theorem dateLt_false_of_index_lt {a b : PyDate}
    (hma : 1 ≤ a.month ∧ a.month ≤ 12) (hmb : 1 ≤ b.month ∧ b.month ≤ 12)
    (h : 12 * b.year + b.month < 12 * a.year + a.month) : dateLt a b = false := by
  simp only [dateLt, Bool.or_eq_false_iff, Bool.and_eq_false_iff,
    decide_eq_false_iff_not, decide_eq_true_eq]
  omega

/-- The filter of the reassigned batch by an origin-and-month predicate has
the same length as the filter of the raw batch (ids are irrelevant to the
predicate). -/
theorem length_filter_assign (ids : Nat → String) (l : List Conta)
    (p : Conta → Bool) (hp : ∀ (c : Conta) (j : Nat), p { c with id := ids j } = p c) :
    ((l.enum.map fun pr => { pr.2 with id := ids pr.1 }).filter p).length =
      (l.filter p).length := by
  rw [← List.countP_eq_length_filter, ← List.countP_eq_length_filter]
  exact countP_assign ids l p hp

/-- Claim C3.  Indefinite recurrence generates only the month immediately
after the origin's month: with no pre-existing instance, calling the
generator for exactly that key creates one instance with amount `0.00` linked
to the origin, and calling it for any other key creates nothing for that
origin. -/
theorem indef_generates_next_month_only (ids : Nat → String) (s : List Conta)
    (k : String) (o : Conta) (od : PyDate)
    (ho : o ∈ s) (hnd : (s.map Conta.id).Nodup)
    (hindef : o.rec_type = some "indef") (hfal : falsyRecOrigin o = true)
    (hp1 : parse_month_input o.month = some od) :
    (k = month_key_from_date (add_months od 1) → parse_month_input k ≠ none →
      existsCheck s k o = false →
      originAdditions s k o = [mkIndefInstance o k] ∧
        (mkIndefInstance o k).amount_decimal = 0 ∧
        (mkIndefInstance o k).rec_origin = some o.id ∧
        ((ensure_recurring_for_month ids s k).filter
            (fun c => c.rec_origin = some o.id && c.month = k)).length = 1) ∧
    (k ≠ month_key_from_date (add_months od 1) →
      originAdditions s k o = [] ∧
        (ensure_recurring_for_month ids s k).filter
            (fun c => c.rec_origin = some o.id) =
          s.filter (fun c => c.rec_origin = some o.id)) := by
  have hcand : isRecOriginCandidate o = true :=
    isRecOriginCandidate_iff.mpr ⟨Or.inl hindef, hfal⟩
  have hodb := parse_month_input_bounds hp1
  constructor
  · intro hk hpk hex
    cases hp2 : parse_month_input k with
    | none => exact absurd hp2 hpk
    | some td =>
    have hguard : month_key_from_date (add_months od 1) = k := hk.symm
    have hb1 := add_months_month_bounds od 1
    have hy1 : 1 ≤ (add_months od 1).year :=
      le_trans hodb.1 (add_months_year_ge hodb.2.2.1 hodb.2.2.2.1 (by omega))
    have hd := key_determines_date hy1 hb1.1 hb1.2 hguard hp2
    have hidx := add_months_month_index od 1
    have hlt : dateLt td od = false := by
      rw [hd.2]
      apply dateLt_false_of_index_lt ?_ ⟨hodb.2.2.1, hodb.2.2.2.1⟩ ?_
      · show 1 ≤ (add_months od 1).month ∧ (add_months od 1).month ≤ 12
        exact hb1
      · show 12 * od.year + od.month <
          12 * (add_months od 1).year + (add_months od 1).month
        omega
    have hsingle : originAdditions s k o =
        [mkIndefInstance o k] :=
      originAdditions_indef_singleton hcand hp1 hp2 hlt hex hindef hguard
    refine ⟨hsingle, roundHalfEven2_zero, rfl, ?_⟩
    rw [ensure_eq_append, List.filter_append, List.length_append]
    have hs0 : (s.filter (fun c => c.rec_origin = some o.id && c.month = k)).length = 0 := by
      rw [List.length_eq_zero, List.filter_eq_nil_iff]
      intro c hc hpred
      simp only [Bool.and_eq_true, decide_eq_true_eq] at hpred
      have := existsCheck_of_mem hc hpred.2 (recOriginIs_some hpred.1)
      rw [hex] at this
      exact Bool.false_ne_true this
    have hA : (((ensureAdditions s k).enum.map fun pr =>
        { pr.2 with id := ids pr.1 }).filter
          (fun c => c.rec_origin = some o.id && c.month = k)).length = 1 := by
      rw [length_filter_assign _ _ _ (fun c j => rfl)]
      have hff : (ensureAdditions s k).filter
          (fun c => c.rec_origin = some o.id && c.month = k) =
          ((ensureAdditions s k).filter
            (fun c => c.rec_origin = some o.id)).filter (fun c => c.month = k) := by
        rw [List.filter_filter]
        congr 1
        funext c
        rw [Bool.and_comm]
      rw [hff, ensureAdditions, filter_flatMap_origin ho hnd, hsingle]
      rw [List.filter_cons]
      simp [mkIndefInstance]
    rw [hs0, hA]
  · intro hk
    have hnil : originAdditions s k o = [] := by
      cases hp2 : parse_month_input k with
      | none => exact originAdditions_parse_target_none hp2
      | some td =>
      by_cases hlt : dateLt td od = true
      case pos => exact originAdditions_target_before hp1 hp2 hlt
      by_cases hex : existsCheck s k o = true
      case pos => exact originAdditions_exists hex
      rw [originAdditions_indef_eq hcand hp1 hp2 (bool_eq_false_of_ne_true hlt)
        (bool_eq_false_of_ne_true hex) hindef]
      rw [if_neg (fun hguard => hk hguard.symm)]
    refine ⟨hnil, ?_⟩
    rw [ensure_eq_append, List.filter_append]
    have hA : (((ensureAdditions s k).enum.map fun pr =>
        { pr.2 with id := ids pr.1 }).filter
          (fun c => c.rec_origin = some o.id)) = [] := by
      rw [List.filter_eq_nil_iff]
      intro a ha hpred
      obtain ⟨c, hc, j, rfl⟩ := mem_ensure_additions_part ha
      simp only [decide_eq_true_eq] at hpred
      have hcf : c ∈ (ensureAdditions s k).filter
          (fun c => c.rec_origin = some o.id) :=
        List.mem_filter.mpr ⟨hc, by simpa using hpred⟩
      rw [ensureAdditions, filter_flatMap_origin ho hnd, hnil] at hcf
      exact absurd hcf (by simp)
    rw [hA, List.append_nil]

theorem roundHalfEven2_hundred : roundHalfEven2 (100 : Rat) = 100 := by
  have h := roundHalfEven2_int_div 10000
  norm_num at h
  exact h

theorem roundHalfEven2_one_fifty : roundHalfEven2 (150 : Rat) = 150 := by
  have h := roundHalfEven2_int_div 15000
  norm_num at h
  exact h

/-- Claim C2.  Fixed-recurrence carry-forward: from a fixed origin with span
`N`, the generator creates an instance only when the target key is the
origin's month shifted by some offset `i ∈ [1, N-1]`; the created instance's
amount is the carried-forward value — the amount of the first bill found for
the month one prior (matched by origin link or the legacy name/month
fallback), defaulting to the origin's own amount — and a target at offset
`≥ N` creates nothing.  The concrete conjuncts replay the spec's scenario:
origin `2024-01`/span 3/amount 100: generating `2024-02` yields `100.00`;
after the February instance is edited to `150.00`, generating `2024-03`
yields `150.00`; generating `2024-04` creates nothing. -/
theorem fixed_carry_forward (ids : Nat → String) (s : List Conta) (k : String)
    (o : Conta) (od : PyDate)
    (ho : o ∈ s) (hnd : (s.map Conta.id).Nodup)
    (hfixed : o.rec_type = some "fixed") (hfal : falsyRecOrigin o = true)
    (hp1 : parse_month_input o.month = some od)
    (htwo : ∀ c ∈ s, ∃ z : Int, c.amount_decimal = (z : Rat) / 100) :
    ((ensureAdditions s k).filter (fun c => c.rec_origin = some o.id) =
        originAdditions s k o) ∧
      (∀ c ∈ originAdditions s k o,
        ∃ i : Nat, 1 ≤ i ∧ i ≤ o.recorrencia_months - 1 ∧
          k = month_key_from_date (add_months od (i : Int)) ∧
          c.amount_decimal = carriedValue s o (add_months od (i : Int))) ∧
      (∀ j : Nat, o.recorrencia_months ≤ j →
        k = month_key_from_date (add_months od (j : Int)) →
        originAdditions s k o = []) ∧
      (originAdditions [origemFixa] "2024-02" origemFixa).map
          (fun c => c.amount_decimal) = [100] ∧
      (originAdditions [origemFixa, instanciaFev] "2024-03" origemFixa).map
          (fun c => c.amount_decimal) = [150] ∧
      originAdditions [origemFixa, instanciaFev] "2024-04" origemFixa = [] := by
  have hcand : isRecOriginCandidate o = true :=
    isRecOriginCandidate_iff.mpr ⟨Or.inr hfixed, hfal⟩
  have hodb := parse_month_input_bounds hp1
  have hcarry_two : ∀ d : PyDate, ∃ z : Int,
      carriedValue s o d = (z : Rat) / 100 := by
    intro d
    rw [carriedValue]
    cases hpi : prevInst s (month_key_from_date (add_months d (-1))) o with
    | none => exact htwo o ho
    | some p =>
      have hp : p ∈ s := List.mem_of_find?_eq_some hpi
      exact htwo p hp
  refine ⟨?_, ?_, ?_, ?_, ?_, ?_⟩
  · rw [ensureAdditions]
    exact filter_flatMap_origin ho hnd
  · intro c hc
    cases hp2 : parse_month_input k with
    | none => rw [originAdditions_parse_target_none hp2] at hc; exact absurd hc (by simp)
    | some td =>
    by_cases hlt : dateLt td od = true
    case pos =>
      rw [originAdditions_target_before hp1 hp2 hlt] at hc
      exact absurd hc (by simp)
    by_cases hex : existsCheck s k o = true
    case pos => rw [originAdditions_exists hex] at hc; exact absurd hc (by simp)
    by_cases h0 : 0 < o.recorrencia_months
    case neg =>
      rw [originAdditions_fixed_zero hfixed (by omega)] at hc
      exact absurd hc (by simp)
    rw [originAdditions_fixed_eq hcand hp1 hp2 (bool_eq_false_of_ne_true hlt)
      (bool_eq_false_of_ne_true hex) hfixed h0] at hc
    rcases List.mem_flatMap.mp hc with ⟨i, hi, hci⟩
    have hib : 1 ≤ i ∧ i < 1 + (o.recorrencia_months - 1) := by simpa using hi
    refine ⟨i, hib.1, by omega, ?_, ?_⟩
    · split at hci
      · next hguard => exact hguard.symm
      · exact absurd hci (by simp)
    · split at hci
      · next hguard =>
        split at hci
        · exact absurd hci (by simp)
        · simp only [List.mem_singleton] at hci
          subst hci
          show roundHalfEven2 (carriedValue s o (add_months od (i : Int))) = _
          obtain ⟨z, hz⟩ := hcarry_two (add_months od (i : Int))
          rw [hz, roundHalfEven2_int_div]
      · exact absurd hci (by simp)
  · intro j hj hk
    cases hp2 : parse_month_input k with
    | none => exact originAdditions_parse_target_none hp2
    | some td =>
    by_cases hlt : dateLt td od = true
    case pos => exact originAdditions_target_before hp1 hp2 hlt
    by_cases hex : existsCheck s k o = true
    case pos => exact originAdditions_exists hex
    by_cases h0 : 0 < o.recorrencia_months
    case neg => exact originAdditions_fixed_zero hfixed (by omega)
    rw [originAdditions_fixed_eq hcand hp1 hp2 (bool_eq_false_of_ne_true hlt)
      (bool_eq_false_of_ne_true hex) hfixed h0]
    apply List.flatMap_eq_nil_iff.mpr
    intro i hi
    have hib : 1 ≤ i ∧ i < 1 + (o.recorrencia_months - 1) := by simpa using hi
    rw [if_neg]
    intro hguard
    have := guard_offset_unique ⟨hodb.1, hodb.2.1, hodb.2.2.1, hodb.2.2.2.1⟩
      hp2 hguard hk.symm
    omega
  · have hg : month_key_from_date (add_months ⟨2024, 1, 1⟩ ((1 : Nat) : Int)) =
        "2024-02" := by
      simp [month_key_from_date, add_months, natDigits, padDigits, digitCh,
        daysInMonth, isLeapYear]
    rw [@originAdditions_fixed_singleton [origemFixa] "2024-02" origemFixa
      ⟨2024, 1, 1⟩ ⟨2024, 2, 1⟩ 1 (by decide) (by decide) (by decide) (by decide)
      (by decide) rfl (by omega) (by decide) hg]
    have hck : month_key_from_date
        (add_months (add_months ⟨2024, 1, 1⟩ ((1 : Nat) : Int)) (-1)) = "2024-01" := by
      simp [month_key_from_date, add_months, natDigits, padDigits, digitCh,
        daysInMonth, isLeapYear]
    have hcv : carriedValue [origemFixa] origemFixa
        (add_months ⟨2024, 1, 1⟩ ((1 : Nat) : Int)) = 100 := by
      rw [carriedValue, hck]
      rfl
    rw [List.map_singleton, hcv]
    show [roundHalfEven2 100] = [100]
    rw [roundHalfEven2_hundred]
  · have hg : month_key_from_date (add_months ⟨2024, 1, 1⟩ ((2 : Nat) : Int)) =
        "2024-03" := by
      simp [month_key_from_date, add_months, natDigits, padDigits, digitCh,
        daysInMonth, isLeapYear]
    rw [@originAdditions_fixed_singleton [origemFixa, instanciaFev] "2024-03"
      origemFixa ⟨2024, 1, 1⟩ ⟨2024, 3, 1⟩ 2 (by decide) (by decide) (by decide)
      (by decide) (by decide) rfl (by omega) (by decide) hg]
    have hck : month_key_from_date
        (add_months (add_months ⟨2024, 1, 1⟩ ((2 : Nat) : Int)) (-1)) = "2024-02" := by
      simp [month_key_from_date, add_months, natDigits, padDigits, digitCh,
        daysInMonth, isLeapYear]
    have hcv : carriedValue [origemFixa, instanciaFev] origemFixa
        (add_months ⟨2024, 1, 1⟩ ((2 : Nat) : Int)) = 150 := by
      rw [carriedValue, hck]
      rfl
    rw [List.map_singleton, hcv]
    show [roundHalfEven2 150] = [150]
    rw [roundHalfEven2_one_fifty]
  · have hodb2 : parse_month_input origemFixa.month = some ⟨2024, 1, 1⟩ := by decide
    have hp2 : parse_month_input "2024-04" = some ⟨2024, 4, 1⟩ := by decide
    by_cases hex : existsCheck [origemFixa, instanciaFev] "2024-04" origemFixa = true
    case pos => exact originAdditions_exists hex
    rw [@originAdditions_fixed_eq [origemFixa, instanciaFev] "2024-04" origemFixa
      ⟨2024, 1, 1⟩ ⟨2024, 4, 1⟩ (by decide) hodb2 hp2 (by decide)
      (bool_eq_false_of_ne_true hex) rfl (by decide)]
    apply List.flatMap_eq_nil_iff.mpr
    intro i hi
    have hib : 1 ≤ i ∧ i < 1 + (3 - 1) := by
      simpa [origemFixa] using hi
    rw [if_neg]
    intro hguard
    have hg3 : month_key_from_date (add_months ⟨2024, 1, 1⟩ ((3 : Nat) : Int)) =
        "2024-04" := by
      simp [month_key_from_date, add_months, natDigits, padDigits, digitCh,
        daysInMonth, isLeapYear]
    have := @guard_offset_unique ⟨2024, 1, 1⟩ ⟨2024, 4, 1⟩ "2024-04" i 3
      (by decide) hp2 hguard hg3
    omega

theorem updateConta_contains {s : List Conta} {u : Conta}
    (hex : ∃ c ∈ s, c.id = u.id) : u ∈ updateConta s u := by
  induction s with
  | nil => simp at hex
  | cons c rest ih =>
    rw [updateConta]
    by_cases hc : c.id = u.id
    · rw [if_pos hc]
      simp
    · rw [if_neg hc]
      rcases hex with ⟨w, hw, hwid⟩
      rcases List.mem_cons.mp hw with rfl | hwr
      · exact absurd hwid hc
      · exact List.mem_cons_of_mem _ (ih ⟨w, hwr, hwid⟩)

theorem updateConta_id_mem {s : List Conta} {u : Conta} {i : String}
    (hu : u.id = i) (hex : ∃ c ∈ s, c.id = i) :
    ∃ c ∈ updateConta s u, c.id = i := by
  induction s with
  | nil => simp at hex
  | cons c rest ih =>
    rw [updateConta]
    by_cases hc : c.id = u.id
    · rw [if_pos hc]
      exact ⟨u, by simp, hu⟩
    · rw [if_neg hc]
      rcases hex with ⟨w, hw, hwid⟩
      rcases List.mem_cons.mp hw with rfl | hwr
      · exact ⟨w, by simp, hwid⟩
      · obtain ⟨c2, hc2, hc2i⟩ := ih ⟨w, hwr, hwid⟩
        exact ⟨c2, List.mem_cons_of_mem _ hc2, hc2i⟩

theorem originAdditions_nonfalsy_rec_origin (s : List Conta) (k : String)
    (b : Conta) (r : String) (hb : b.rec_origin = some r) (hr : r ≠ "") :
    originAdditions s k b = [] := by
  apply originAdditions_not_candidate
  rw [isRecOriginCandidate, falsyRecOrigin, hb]
  simp [hr]

theorem exists_origin_core (ids0 : String) (S3 tail : List Conta) (cur : Conta)
    (hid : cur.id = ids0) (hex : ∃ c ∈ S3, c.id = ids0) (hne : ids0 ≠ "") :
    ∃ c0 ∈ updateConta S3 { cur with rec_origin := some cur.id } ++ tail,
      c0.id = ids0 ∧ c0.rec_origin = some ids0 ∧
        ∀ (t : List Conta) (k2 : String), originAdditions t k2 c0 = [] := by
  refine ⟨{ cur with rec_origin := some cur.id },
    List.mem_append_left _ (updateConta_contains (by simpa [hid] using hex)),
    hid, by rw [hid], ?_⟩
  intro t k2
  exact originAdditions_nonfalsy_rec_origin t k2 _ cur.id rfl (hid ▸ hne)

theorem exists_id_S3 {i : String} (s parcels : List Conta) (new0 curp : Conta)
    (cond : Prop) [Decidable cond] (h0 : new0.id = i) (h1 : curp.id = i) :
    ∃ c ∈ (if cond then
        (if cond then updateConta (s ++ [new0]) curp else s ++ [new0]) ++ parcels
      else (if cond then updateConta (s ++ [new0]) curp else s ++ [new0])),
      c.id = i := by
  by_cases hc : cond
  · rw [if_pos hc, if_pos hc]
    obtain ⟨c, hcm, hci⟩ := updateConta_id_mem h1
      ⟨new0, List.mem_append_right s (List.mem_singleton_self new0), h0⟩
    exact ⟨c, List.mem_append_left _ hcm, hci⟩
  · rw [if_neg hc, if_neg hc]
    exact ⟨new0, List.mem_append_right s (List.mem_singleton_self new0), h0⟩

/-- Claim C10.  Origins are only bills with a recurrence kind and a
null/empty `rec_origin`: a bill with any non-empty `rec_origin` — in
particular one linked to itself — is never processed by the generator; every
generated bill traces back to such an origin.  Moreover the creation route
sets a recurring origin's `rec_origin` to the bill's own id, so bills created
through that route are never selected as origins. -/
theorem self_linked_origins_never_processed :
    (∀ (s : List Conta) (k : String) (b : Conta) (r : String),
      b.rec_origin = some r → r ≠ "" → originAdditions s k b = []) ∧
      (∀ (s : List Conta) (k : String), ∀ c ∈ ensureAdditions s k,
        ∃ o ∈ s, (o.rec_type = some "indef" ∨ o.rec_type = some "fixed") ∧
          falsyRecOrigin o = true ∧ c.rec_origin = some o.id) ∧
      (∀ (ids : Nat → String) (s : List Conta) (name : String) (value : Rat)
        (mes : PyDate) (cat notes : String) (recindef : Bool) (rm : Nat)
        (par : Bool) (parc : Nat),
        (recindef = true ∨ 0 < rm) → (∀ c ∈ s, c.id ≠ ids 0) → ids 0 ≠ "" →
        ∃ c0 ∈ cadastrarPost ids s name value mes cat notes recindef rm par parc,
          c0.id = ids 0 ∧ c0.rec_origin = some (ids 0) ∧
            ∀ (t : List Conta) (k2 : String), originAdditions t k2 c0 = []) := by
  refine ⟨originAdditions_nonfalsy_rec_origin, ?_, ?_⟩
  · intro s k c hc
    obtain ⟨o, ho, hco⟩ := mem_ensureAdditions hc
    have hf := mem_originAdditions hco
    have hcand := isRecOriginCandidate_iff.mp hf.1
    exact ⟨o, ho, hcand.1, hcand.2, hf.2.2.2.1⟩
  · intro ids s name value mes cat notes recindef rm par parc hrec hfresh hne
    rw [cadastrarPost]
    cases hri : recindef with
    | true =>
      rw [if_pos rfl, if_neg (fun h => absurd h.1 (by decide)), if_pos rfl]
      exact exists_origin_core (ids 0) _ _ _ (by split <;> rfl)
        (exists_id_S3 _ _ _ _ _ rfl (by split <;> rfl)) hne
    | false =>
      have hrm : 0 < rm := by
        rcases hrec with h | h
        · rw [hri] at h; exact absurd h (by simp)
        · exact h
      rw [if_neg (by decide : ¬ (false = true)), if_pos hrm, if_pos ⟨rfl, hrm⟩]
      exact exists_origin_core (ids 0) _ _ _ (by split <;> rfl)
        (exists_id_S3 _ _ _ _ _ rfl (by split <;> rfl)) hne

/-! ### Uniqueness invariant machinery (Claim C4) -/

theorem originAdditions_length_le_one (s : List Conta) (k : String) (o : Conta) :
    (originAdditions s k o).length ≤ 1 := by
  by_cases hcand : isRecOriginCandidate o = true
  case neg =>
    rw [originAdditions_not_candidate (bool_eq_false_of_ne_true hcand)]
    simp
  cases hp1 : parse_month_input o.month with
  | none => rw [originAdditions_parse_origin_none hp1]; simp
  | some od =>
  cases hp2 : parse_month_input k with
  | none => rw [originAdditions_parse_target_none hp2]; simp
  | some td =>
  have hodb := parse_month_input_bounds hp1
  by_cases hlt : dateLt td od = true
  case pos => rw [originAdditions_target_before hp1 hp2 hlt]; simp
  by_cases hex : existsCheck s k o = true
  case pos => rw [originAdditions_exists hex]; simp
  rcases (isRecOriginCandidate_iff.mp hcand).1 with hindef | hfixed
  · rw [originAdditions_indef_eq hcand hp1 hp2 (bool_eq_false_of_ne_true hlt)
      (bool_eq_false_of_ne_true hex) hindef]
    split <;> simp
  · by_cases h0 : 0 < o.recorrencia_months
    case neg => rw [originAdditions_fixed_zero hfixed (by omega)]; simp
    rw [originAdditions_fixed_eq hcand hp1 hp2 (bool_eq_false_of_ne_true hlt)
      (bool_eq_false_of_ne_true hex) hfixed h0]
    by_cases hg : ∃ i ∈ List.range' 1 (o.recorrencia_months - 1),
        month_key_from_date (add_months od (i : Int)) = k
    · obtain ⟨i, hi, hguard⟩ := hg
      rw [flatMap_singleton_of_unique hi (List.nodup_range' _ _)]
      · split <;> (try split) <;> simp
      · intro j hj hji
        rw [if_neg]
        intro hgj
        exact hji (guard_offset_unique ⟨hodb.1, hodb.2.1, hodb.2.2.1, hodb.2.2.2.1⟩
          hp2 hgj hguard)
    · push_neg at hg
      rw [List.flatMap_eq_nil_iff.mpr (fun i hi => by rw [if_neg (hg i hi)])]
      simp

theorem countP_flatMap_origin_le_one {s full : List Conta} {k oid m : String}
    (hnd : (s.map Conta.id).Nodup) :
    ((s.flatMap (originAdditions full k)).countP
      (fun c => c.rec_origin = some oid && c.month = m)) ≤ 1 := by
  induction s with
  | nil => simp
  | cons x rest ih =>
    rw [List.map_cons, List.nodup_cons] at hnd
    rw [List.flatMap_cons, List.countP_append]
    by_cases h0 : (originAdditions full k x).countP
        (fun c => c.rec_origin = some oid && c.month = m) = 0
    · rw [h0]
      simpa using ih hnd.2
    · have hpos : 0 < (originAdditions full k x).countP
          (fun c => c.rec_origin = some oid && c.month = m) := by omega
      obtain ⟨c, hc, hpred⟩ := List.countP_pos_iff.mp hpos
      simp only [Bool.and_eq_true, decide_eq_true_eq] at hpred
      have hcid : c.rec_origin = some x.id := (mem_originAdditions hc).2.2.2.1
      have hxid : x.id = oid := by
        rw [hcid] at hpred
        exact Option.some.inj hpred.1
      have h1 : (originAdditions full k x).countP
          (fun c => c.rec_origin = some oid && c.month = m) ≤ 1 :=
        le_trans (List.countP_le_length _) (originAdditions_length_le_one full k x)
      have h2 : (rest.flatMap (originAdditions full k)).countP
          (fun c => c.rec_origin = some oid && c.month = m) = 0 := by
        rw [List.countP_eq_zero]
        intro c2 hc2 hpred2
        simp only [Bool.and_eq_true, decide_eq_true_eq] at hpred2
        obtain ⟨o2, ho2, hco2⟩ := List.mem_flatMap.mp hc2
        have hc2id : c2.rec_origin = some o2.id := (mem_originAdditions hco2).2.2.2.1
        have : o2.id = oid := by
          rw [hc2id] at hpred2
          exact Option.some.inj hpred2.1
        exact hnd.1 (hxid ▸ this ▸ List.mem_map_of_mem Conta.id ho2)
      omega

theorem uniqueInstances_ensure {ids : Nat → String} {s : List Conta} {k : String}
    (hnd : distinctIds s) (hu : uniqueInstances s) :
    uniqueInstances (ensure_recurring_for_month ids s k) := by
  intro oid m
  rw [ensure_eq_append, List.filter_append, List.length_append]
  have hA : (((ensureAdditions s k).enum.map fun pr =>
      { pr.2 with id := ids pr.1 }).filter
        (fun c => c.rec_origin = some oid && c.month = m)).length =
      ((ensureAdditions s k).filter
        (fun c => c.rec_origin = some oid && c.month = m)).length :=
    length_filter_assign _ _ _ (fun c j => rfl)
  rw [hA]
  by_cases h0 : ((ensureAdditions s k).filter
      (fun c => c.rec_origin = some oid && c.month = m)).length = 0
  · rw [h0]
    simpa using hu oid m
  · have hpos : 0 < ((ensureAdditions s k).filter
        (fun c => c.rec_origin = some oid && c.month = m)).length := by omega
    obtain ⟨c, hcf⟩ := List.exists_mem_of_length_pos hpos
    have hc := List.mem_filter.mp hcf
    have hpred := hc.2
    simp only [Bool.and_eq_true, decide_eq_true_eq] at hpred
    obtain ⟨o, ho, hco⟩ := mem_ensureAdditions hc.1
    have hf := mem_originAdditions hco
    have hoid : o.id = oid := by
      have := hf.2.2.2.1
      rw [this] at hpred
      exact Option.some.inj hpred.1
    have hm : m = k := by rw [← hpred.2, hf.2.2.1]
    have hs0 : (s.filter fun c => c.rec_origin = some oid && c.month = m).length = 0 := by
      rw [List.length_eq_zero, List.filter_eq_nil_iff]
      intro c2 hc2 hpred2
      simp only [Bool.and_eq_true, decide_eq_true_eq] at hpred2
      have hchk := existsCheck_of_mem hc2 (hm ▸ hpred2.2)
        (recOriginIs_some (hoid ▸ hpred2.1))
      rw [hf.2.1] at hchk
      exact Bool.false_ne_true hchk
    have hAle : ((ensureAdditions s k).filter
        (fun c => c.rec_origin = some oid && c.month = m)).length ≤ 1 := by
      rw [← List.countP_eq_length_filter]
      exact countP_flatMap_origin_le_one hnd
    omega

theorem fresh_assigned_ids {ids : Nat → String} {n : Nat} {l : List Conta} :
    (l.enum.map fun pr => { pr.2 with id := ids (n + pr.1) }).map Conta.id =
      (List.range l.length).map (fun j => ids (n + j)) := by
  rw [List.map_map]
  have h : (Conta.id ∘ fun pr : Nat × Conta => { pr.2 with id := ids (n + pr.1) }) =
      (fun j => ids (n + j)) ∘ Prod.fst := rfl
  rw [h, ← List.map_map, List.enum_map_fst]

theorem ensure_step_invariant {ids : Nat → String} {s : List Conta} {k : String}
    {n : Nat} (hinj : Function.Injective ids)
    (hnd : distinctIds s) (hu : uniqueInstances s)
    (hfresh : ∀ c ∈ s, ∀ j, n ≤ j → c.id ≠ ids j) :
    distinctIds (ensure_recurring_for_month (fun j => ids (n + j)) s k) ∧
      uniqueInstances (ensure_recurring_for_month (fun j => ids (n + j)) s k) ∧
      ∀ c ∈ ensure_recurring_for_month (fun j => ids (n + j)) s k,
        ∀ j, n + (ensureAdditions s k).length ≤ j → c.id ≠ ids j := by
  refine ⟨?_, uniqueInstances_ensure hnd hu, ?_⟩
  · rw [distinctIds, ensure_eq_append, List.map_append, List.nodup_append]
    refine ⟨hnd, ?_, ?_⟩
    · rw [fresh_assigned_ids]
      apply List.Nodup.map
      · intro a b hab
        exact Nat.add_left_cancel (hinj hab)
      · exact List.nodup_range _
    · intro x hx
      rw [fresh_assigned_ids]
      intro hx2
      rcases List.mem_map.mp hx2 with ⟨j, hj, rfl⟩
      rcases List.mem_map.mp hx with ⟨c, hc, hcid⟩
      exact hfresh c hc (n + j) (by omega) hcid
  · intro c hc j hj
    rw [ensure_eq_append] at hc
    rcases List.mem_append.mp hc with hcs | hcA
    · exact hfresh c hcs j (by omega)
    · have : c.id ∈ ((ensureAdditions s k).enum.map fun pr =>
          { pr.2 with id := ids (n + pr.1) }).map Conta.id :=
        List.mem_map_of_mem Conta.id hcA
      rw [fresh_assigned_ids] at this
      rcases List.mem_map.mp this with ⟨j2, hj2, hid⟩
      rw [← hid]
      intro heq
      have := hinj heq
      rw [List.mem_range] at hj2
      omega

theorem ensureSeq_invariant (ids : Nat → String) (hinj : Function.Injective ids)
    (ks : List String) (s : List Conta) (n : Nat)
    (hnd : distinctIds s) (hu : uniqueInstances s)
    (hfresh : ∀ c ∈ s, ∀ j, n ≤ j → c.id ≠ ids j) :
    distinctIds (ensureSeq ids (s, n) ks).1 ∧
      uniqueInstances (ensureSeq ids (s, n) ks).1 ∧
      ∀ c ∈ (ensureSeq ids (s, n) ks).1, ∀ j,
        (ensureSeq ids (s, n) ks).2 ≤ j → c.id ≠ ids j := by
  induction ks generalizing s n with
  | nil => exact ⟨hnd, hu, hfresh⟩
  | cons k ks ih =>
    obtain ⟨h1, h2, h3⟩ := ensure_step_invariant (k := k) hinj hnd hu hfresh
    have := ih (ensure_recurring_for_month (fun j => ids (n + j)) s k)
      (n + (ensureAdditions s k).length) h1 h2 h3
    simpa [ensureSeq, List.foldl_cons] using this

/-- Claim C4.  Uniqueness invariant: starting from a store with pairwise
distinct ids, a fresh uuid supply and at most one generated instance per
(origin id, month) pair, any sequence of generator calls preserves the
invariant; and the duplicate check honors the legacy fallback, so an
unlinked bill matching the origin's name and month (at the target month)
makes the generator create nothing for that origin. -/
theorem uniqueness_invariant :
    (∀ (ids : Nat → String) (ks : List String) (s : List Conta),
      Function.Injective ids → (∀ c ∈ s, ∀ j : Nat, c.id ≠ ids j) →
      distinctIds s → uniqueInstances s →
      uniqueInstances (ensureSeq ids (s, 0) ks).1) ∧
      (∀ (s : List Conta) (k : String) (o c : Conta), c ∈ s →
        falsyRecOrigin c = true → c.name = o.name → c.month = o.month →
        c.id ≠ o.id → c.month = k → originAdditions s k o = []) := by
  constructor
  · intro ids ks s hinj hfresh hnd hu
    exact (ensureSeq_invariant ids hinj ks s 0 hnd hu
      (fun c hc j _ => hfresh c hc j)).2.1
  · intro s k o c hc hfal hname hmonth hid hk
    apply originAdditions_exists
    rw [existsCheck, List.any_eq_true]
    exact ⟨c, hc, by simp [hk, hfal, hname, hmonth, hid]; exact Or.inr (hk ▸ hmonth)⟩

theorem sampleIds_injective : Function.Injective sampleIds := by
  intro a b h
  have hlen : (sampleIds a).data.length = (sampleIds b).data.length := by rw [h]
  have : a + 1 = b + 1 := by simpa [sampleIds] using hlen
  omega

theorem sample_store_fresh :
    ∀ c ∈ [origemFixa, origemIndef], ∀ j : Nat, c.id ≠ sampleIds j := by
  intro c hc j heq
  have hhead : c.id.data.head? = some 'g' := by rw [heq]; rfl
  simp only [List.mem_cons, List.not_mem_nil, or_false] at hc
  rcases hc with hc | hc <;> subst hc <;> exact absurd hhead (by decide)

theorem sample_store_unique : uniqueInstances [origemFixa, origemIndef] := by
  intro oid m
  simp [origemFixa, origemIndef, List.filter]

theorem uniqueness_invariant_witness :
    uniqueInstances (ensureSeq sampleIds ([origemFixa, origemIndef], 0) ["2024-02"]).1 ∧
      originAdditions [origemFixa, contaLegada] "2024-01" origemFixa = [] := by
  constructor
  · exact uniqueness_invariant.1 sampleIds ["2024-02"] [origemFixa, origemIndef]
      sampleIds_injective sample_store_fresh
      (by unfold distinctIds; decide) sample_store_unique
  · exact uniqueness_invariant.2 [origemFixa, contaLegada] "2024-01" origemFixa
      contaLegada (by simp) (by decide) rfl rfl (by decide) rfl

theorem ensure_recurring_for_month_malformed_months_witness :
    ensure_recurring_for_month sampleIds [origemFixa] "garbage" = [origemFixa] ∧
      ensureAdditions ([origemFixa] ++ contaInvalida :: []) "2024-02" =
        ensureAdditions ([origemFixa] ++ []) "2024-02" :=
  ⟨ensure_recurring_for_month_malformed_months.1 sampleIds [origemFixa] "garbage"
      (by decide),
    ensure_recurring_for_month_malformed_months.2 [origemFixa] [] contaInvalida
      "2024-02" (by decide)⟩

theorem split_amount_into_installments_exact_witness :
    (split_amount_into_installments 10 3).length = 3 ∧
      (split_amount_into_installments 10 3).sum = 10 :=
  ⟨(split_amount_into_installments_exact 10 3 1000 (by norm_num) (by norm_num)).1,
    (split_amount_into_installments_exact 10 3 1000 (by norm_num) (by norm_num)).2.1⟩

theorem add_months_shifts_and_clamps_witness :
    12 * (add_months ⟨2024, 3, 15⟩ 10).year + (add_months ⟨2024, 3, 15⟩ 10).month =
        12 * (2024 : Int) + 3 + 10 ∧ validDate (add_months ⟨2024, 3, 15⟩ 10) :=
  ⟨(add_months_shifts_and_clamps.1 ⟨2024, 3, 15⟩ 10
      (by refine ⟨?_, ?_, ?_, ?_⟩ <;> decide)).1,
    (add_months_shifts_and_clamps.1 ⟨2024, 3, 15⟩ 10
      (by refine ⟨?_, ?_, ?_, ?_⟩ <;> decide)).2.2.2.2⟩

theorem indef_generates_next_month_only_witness :
    originAdditions [origemIndef] "2024-02" origemIndef =
        [mkIndefInstance origemIndef "2024-02"] ∧
      (mkIndefInstance origemIndef "2024-02").amount_decimal = 0 := by
  have h := indef_generates_next_month_only sampleIds [origemIndef] "2024-02"
    origemIndef ⟨2024, 1, 1⟩ (by simp) (by decide) rfl (by decide) (by decide)
  have h1 := h.1 (by simp [month_key_from_date, add_months, natDigits, padDigits,
    digitCh, daysInMonth, isLeapYear]) (by decide) (by decide)
  exact ⟨h1.1, h1.2.1⟩

theorem fixed_carry_forward_witness :
    (originAdditions [origemFixa, instanciaFev] "2024-03" origemFixa).map
        (fun c => c.amount_decimal) = [150] ∧
      originAdditions [origemFixa, instanciaFev] "2024-04" origemFixa = [] := by
  have h := fixed_carry_forward sampleIds [origemFixa, instanciaFev] "2024-03"
    origemFixa ⟨2024, 1, 1⟩ (by simp) (by decide) rfl (by decide) (by decide)
    (by
      intro c hc
      simp only [List.mem_cons, List.not_mem_nil, or_false] at hc
      rcases hc with rfl | rfl
      · exact ⟨10000, by norm_num [origemFixa]⟩
      · exact ⟨15000, by norm_num [instanciaFev]⟩)
  exact ⟨h.2.2.2.2.1, h.2.2.2.2.2⟩

theorem self_linked_origins_never_processed_witness :
    ∃ c0 ∈ cadastrarPost sampleIds [] "Net" 100 ⟨2024, 1, 1⟩ "Internet" ""
        true 0 false 1,
      c0.id = sampleIds 0 ∧ c0.rec_origin = some (sampleIds 0) ∧
        ∀ (t : List Conta) (k2 : String), originAdditions t k2 c0 = [] :=
  self_linked_origins_never_processed.2.2 sampleIds [] "Net" 100 ⟨2024, 1, 1⟩
    "Internet" "" true 0 false 1 (Or.inl rfl) (by simp) (by decide)
